import Mathlib

/-!
Shallow embedding of the Bought-Together Analytics Engine of the
Bundle-Analytics repository (source: src/app/pairs/page.js and
src/app/page.jsx), together with theorems settling the frozen claims.

Modelling conventions:
* JS numbers on the data path (order totals, line quantities) are modelled
  as rationals; JSON string/number ids are modelled by their `String(...)`
  coercion.  `null`/`undefined` fields are `Option.none`.
* `Date` parsing (`new Date(s)` / `getTime`) is implementation-defined at
  this level and is modelled by an explicit `parse : String → Option Int`
  parameter (`none` = invalid date); theorems quantify over it.
* `Array.prototype.sort()` without comparator is code-unit lexicographic
  and is modelled by the stable sort `sortLe strLe` (code-point order);
  `localeCompare` sorting is likewise modelled by the code-point order
  (it is used for determinism only).
* JS `Map`s of counters are modelled as functions with pointwise update;
  insertion-order dedup maps are modelled by explicit recursion.
-/

namespace BA

/-- A line-item metadata entry (`{key, value}`); values are kept as their
`String(...)` coercion, `none` for `null`/`undefined`. -/
structure MetaEntry where
  key : Option String
  value : Option String
deriving DecidableEq, Repr

/-- A raw order line item as read from `orders.json`. -/
structure LineItem where
  product_id : Option String := none
  id : Option String := none
  variation_id : Option String := none
  name : Option String := none
  quantity : Option ℚ := none
  subtotal : Option ℚ := none
  total : Option ℚ := none
  meta_data : List MetaEntry := []
deriving DecidableEq, Repr

/-- A raw order as read from `orders.json` (non-array `line_items` is
modelled as `[]`, as the source treats it). -/
structure Order where
  id : Option String := none
  status : Option String := none
  total : Option ℚ := none
  total_refunded : Option ℚ := none
  date_paid : Option String := none
  date_completed : Option String := none
  date_created : Option String := none
  date_created_gmt : Option String := none
  date_modified : Option String := none
  line_items : List LineItem := []
deriving DecidableEq, Repr

/-! Generic helpers shared by the engines.  The JS string operations are
modelled by structurally recursive functions over `List Char` (the
library's wrappers do not reduce in the kernel). -/

/-- `toLowerCase()` (character-wise). -/
def lowerStr (s : String) : String := String.mk (s.toList.map Char.toLower)

/-- `trim()`: strip leading and trailing whitespace. -/
def trimStr (s : String) : String :=
  String.mk
    ((((s.toList.dropWhile Char.isWhitespace).reverse.dropWhile
      Char.isWhitespace).reverse))

/-- Split at every character satisfying `p` (empty segments between
adjacent separators are kept, as in `String.prototype.split`). -/
def splitCharsAux (p : Char → Bool) : List Char → List Char → List String
  | [], acc => [String.mk acc.reverse]
  | c :: cs, acc =>
      if p c then String.mk acc.reverse :: splitCharsAux p cs []
      else splitCharsAux p cs (c :: acc)

/-- Split a string at every character satisfying `p`. -/
def splitChars (p : Char → Bool) (s : String) : List String :=
  splitCharsAux p s.toList []

/-- `s.includes(pat)`: substring occurrence test. -/
def strIncludes (s pat : String) : Bool :=
  let cs := s.toList
  let ps := pat.toList
  (List.range (cs.length + 1)).any fun i =>
    decide ((cs.drop i).take ps.length = ps)

/-- `name.split(/\s+/).filter(Boolean)` (a run of whitespace separates;
empties are dropped by the filter). -/
def wordsOf (name : String) : List String :=
  (splitChars Char.isWhitespace name).filter (· ≠ "")

/-- Code-unit comparison of strings (the default JS `sort()` order;
also the model of `localeCompare` orderings). -/
def charsLe : List Char → List Char → Bool
  | [], _ => true
  | _ :: _, [] => false
  | c :: cs, d :: ds =>
      if c < d then true else if d < c then false else charsLe cs ds

/-- String comparison used by the sorts. -/
def strLe (a b : String) : Bool := charsLe a.toList b.toList

/-- Stable insertion used by `sortLe`. -/
def insertLe {α : Type} (le : α → α → Bool) (x : α) : List α → List α
  | [] => [x]
  | y :: ys => if le x y then x :: y :: ys else y :: insertLe le x ys

/-- A stable sort by the Boolean comparator `le` (JS `Array.prototype
.sort` is stable; any stable sort computes the same list). -/
def sortLe {α : Type} (le : α → α → Bool) : List α → List α
  | [] => []
  | x :: xs => insertLe le x (sortLe le xs)

/-- `words.slice(0,2).join(" ")`: the first two whitespace-delimited words. -/
def firstTwoWords (name : String) : String :=
  " ".intercalate ((wordsOf name).take 2)

/-- The backtracking combination enumerator `combinations(arr, k)` of
src/app/page.jsx (lines 318-335 and 960-977): all index-increasing
selections of `k` elements, in the source's emission order. -/
def combAux {α : Type} : List α → ℕ → List (List α)
  | _, 0 => [[]]
  | [], _ + 1 => []
  | x :: xs, k + 1 => (combAux xs k).map (fun c => x :: c) ++ combAux xs (k + 1)

/-- `combinations(arr, k)` including the `k > n` early return. -/
def combinations {α : Type} (arr : List α) (k : ℕ) : List (List α) :=
  if arr.length < k then [] else combAux arr k

/-- The per-size enumeration loop `for (let s = 1; s <= K; s++)
{ if (items.length < s) continue; combinations(items, s) ... }` of
src/app/page.jsx lines 372-374 (the source fixes `K = 7`), collecting
every produced itemset. -/
def enumAll {α : Type} (items : List α) (K : ℕ) : List (List α) :=
  (List.range' 1 K).flatMap fun s =>
    if items.length < s then [] else combinations items s

/-- The double loop `for i; for j > i` producing the ordered pairs of a
list (src/app/pairs/page.js lines 176-182). -/
def pairsOf {α : Type} : List α → List (α × α)
  | [] => []
  | x :: xs => xs.map (fun y => (x, y)) ++ pairsOf xs

/-- Increment a counter map at each key of a list in order. -/
def bumpAll (counts : String → ℕ) : List String → (String → ℕ)
  | [] => counts
  | k :: ks => bumpAll (fun x => if x = k then counts x + 1 else counts x) ks

/-- The `seenKeys` guarded increment loop (src/app/pairs/page.js lines
165-172): increment once per distinct key not already seen. -/
def bumpDistinct (counts : String → ℕ) (seen : List String) :
    List String → (String → ℕ)
  | [] => counts
  | k :: ks =>
      if k ∈ seen then bumpDistinct counts seen ks
      else bumpDistinct (fun x => if x = k then counts x + 1 else counts x)
        (k :: seen) ks

end BA

namespace BA.Pairs

/-- `GUMMIES_KEYWORDS` of src/app/pairs/page.js line 54. -/
def GUMMIES_KEYWORDS : List String := ["gummi", "gummies"]

/-- `toDateSafe` (lines 57-61): `null`/empty is no date; otherwise the
(implementation-defined) `Date` parse, `none` when invalid. -/
def toDateSafe (parse : String → Option Int) (s : Option String) : Option Int :=
  match s with
  | none => none
  | some str => if str = "" then none else parse str

/-- `status` check of `isOrderEligible` (line 69-70). -/
def statusOk (o : Order) : Bool := lowerStr (o.status.getD "") = "completed"

/-- Total/refund check of `isOrderEligible` (lines 73-75): not
(total = 0 or refunded >= total). -/
def moneyOk (o : Order) : Bool :=
  let total := (o.total.getD 0 : ℚ)
  let refunded := (o.total_refunded.getD 0 : ℚ)
  !(decide (total = 0) || decide (refunded ≥ total))

/-- The date field preference chain of line 77. -/
def dateVal (o : Order) : Option String :=
  o.date_paid.or (o.date_completed.or (o.date_created.or o.date_created_gmt))

/-- One bound of the date range check (lines 83-90): a missing/empty/
unparsable bound never excludes (`dt < NaN` is false in JS). -/
def boundOk (parse : String → Option Int) (iso : Option String)
    (cmp : Int → Bool) : Bool :=
  match iso with
  | none => true
  | some s =>
    if s = "" then true
    else match parse s with
      | none => true
      | some b => cmp b

/-- `isOrderEligible(order, fromIso, toIso)` of src/app/pairs/page.js
lines 67-92. -/
def isOrderEligible (parse : String → Option Int) (o : Order)
    (fromIso toIso : Option String) : Bool :=
  if !statusOk o then false
  else if !moneyOk o then false
  else
    match toDateSafe parse (dateVal o) with
    | none => true
    | some dt =>
        boundOk parse fromIso (fun f => decide (f ≤ dt)) &&
        boundOk parse toIso (fun t => decide (dt ≤ t))

/-- A pairs-engine canonical item `{key, label}`. -/
structure PItem where
  key : String
  label : String
deriving DecidableEq, Repr

/-- `Number(li?.quantity ?? 0)`. -/
def lineQty (li : LineItem) : ℚ := li.quantity.getD 0

/-- `Number(li?.total ?? li?.subtotal ?? 0)`. -/
def lineTotal (li : LineItem) : ℚ := (li.total.or li.subtotal).getD 0

/-- `String(li?.name ?? "").trim()`. -/
def lineName (li : LineItem) : String := trimStr (li.name.getD "")

/-- The gummies keyword detection of lines 112-113. -/
def isGummiesName (name : String) : Bool :=
  GUMMIES_KEYWORDS.any (fun k => strIncludes (lowerStr name) k)

/-- The `product_id ?? id ?? null` identity, `String(...)`-coerced. -/
def linePidStr (li : LineItem) : String := (li.product_id.or li.id).getD "null"

/-- The canonical key `${pid}::${vid}` of line 121. -/
def lineKey (li : LineItem) : String :=
  linePidStr li ++ "::" ++ li.variation_id.getD "0"

/-- The display label of lines 123-124. -/
def lineLabel (li : LineItem) : String :=
  let name := lineName li
  let two := firstTwoWords name
  if two ≠ "" then two
  else if name ≠ "" then name
  else "product-" ++ (li.product_id.or li.id).getD "null"

/-- The per-line resolution of the loop body (lines 103-127): `none`
when the line is skipped (zero quantity / zero value) or is a gummies
line (consolidation only sets a flag). -/
def linePItem (li : LineItem) : Option PItem :=
  if lineQty li ≤ 0 then none
  else if lineTotal li ≤ 0 then none
  else if isGummiesName (lineName li) then none
  else some ⟨lineKey li, lineLabel li⟩

/-- Whether some non-skipped line is a gummies line (lines 107-117). -/
def sawGummiesLine (o : Order) : Bool :=
  o.line_items.any fun li =>
    decide (0 < lineQty li) && decide (0 < lineTotal li) &&
    isGummiesName (lineName li)

/-- The items pushed before dedup (loop of lines 103-127 plus the
consolidated gummies append of lines 130-132). -/
def preItems (o : Order) : List PItem :=
  o.line_items.filterMap linePItem ++
    (if sawGummiesLine o then [⟨"gummies::consolidated", "Gummies"⟩] else [])

/-- The `uniq` map dedup of lines 135-139: keep the first item per key,
in insertion order. -/
def dedupeByKeyAux (seen : List String) : List PItem → List PItem
  | [] => []
  | it :: rest =>
      if it.key ∈ seen then dedupeByKeyAux seen rest
      else it :: dedupeByKeyAux (it.key :: seen) rest

/-- `extractItemsForOrder(order)` of src/app/pairs/page.js lines 98-140. -/
def extractItemsForOrder (o : Order) : List PItem :=
  dedupeByKeyAux [] (preItems o)

/-- Canonical key a line resolves to, when it resolves at all: the
consolidated gummies key for (non-skipped) gummies lines, otherwise the
`pid::vid` key. -/
def lineCanonKey (li : LineItem) : Option String :=
  if lineQty li ≤ 0 then none
  else if lineTotal li ≤ 0 then none
  else if isGummiesName (lineName li) then some "gummies::consolidated"
  else some (lineKey li)

/-- The accumulator of the pairs computation: `itemCounts` (key → number
of eligible orders containing it) and `pairCounts` (canonical
`"A||B"` string → count), src/app/pairs/page.js lines 156-157. -/
structure PairState where
  itemCounts : String → ℕ
  pairCounts : String → ℕ

/-- Keys of an order's extracted items. -/
def orderKeyList (o : Order) : List String :=
  (extractItemsForOrder o).map (·.key)

/-- `keys.sort()` of line 175: default JS sort, code-unit lexicographic. -/
def sortedKeys (o : Order) : List String :=
  sortLe strLe (orderKeyList o)

/-- The ordered pairs produced by the nested loops of lines 176-182. -/
def orderPairs (o : Order) : List (String × String) := pairsOf (sortedKeys o)

/-- The canonical pair key `${a}||${b}` of line 179. -/
def pairKeyStr (p : String × String) : String := p.1 ++ "||" ++ p.2

/-- The per-eligible-order update of lines 160-183 (the `products` label
map is presentation-only and not modelled). -/
def processOrderCounts (st : PairState) (o : Order) : PairState :=
  let items := extractItemsForOrder o
  if items.length < 1 then st
  else
    { itemCounts := bumpDistinct st.itemCounts [] (items.map (·.key))
      pairCounts := bumpAll st.pairCounts ((orderPairs o).map pairKeyStr) }

/-- The eligible subset of lines 150-153. -/
def eligibleOrders (parse : String → Option Int) (orders : List Order)
    (fromIso toIso : Option String) : List Order :=
  orders.filter (fun o => isOrderEligible parse o fromIso toIso)

/-- The initial (empty) accumulator. -/
def initState : PairState := ⟨fun _ => 0, fun _ => 0⟩

/-- The whole counting pass of the pairs `useMemo` (lines 143-183). -/
def computeCounts (parse : String → Option Int) (orders : List Order)
    (fromIso toIso : Option String) : PairState :=
  (eligibleOrders parse orders fromIso toIso).foldl processOrderCounts initState

/-- `totalEligibleOrders` of the pairs engine (line 187 / 213). -/
def totalEligibleOrders (parse : String → Option Int) (orders : List Order)
    (fromIso toIso : Option String) : ℕ :=
  (eligibleOrders parse orders fromIso toIso).length

/-- `supportPct` derivation of line 194. -/
def supportPctCalc (total support : ℕ) : ℚ :=
  if 0 < total then ((support : ℚ) / (total : ℚ)) * 100 else 0

/-- Confidence derivation of lines 195-196. -/
def confCalc (countA support : ℕ) : ℚ :=
  if 0 < countA then (support : ℚ) / (countA : ℚ) else 0

/-- Lift derivation of line 197. -/
def liftCalc (total countA countB support : ℕ) : ℚ :=
  if 0 < total ∧ 0 < countA ∧ 0 < countB then
    ((support : ℚ) / (total : ℚ)) /
      (((countA : ℚ) / (total : ℚ)) * ((countB : ℚ) / (total : ℚ)))
  else 0

/-- Number of pair-contribution events for the ordered canonical pair
`p` across the eligible orders (one event per order that produces `p`
in its nested pair loop), before the `"A||B"` string keying. -/
def pairEventCount (parse : String → Option Int) (orders : List Order)
    (fromIso toIso : Option String) (p : String × String) : ℕ :=
  ((eligibleOrders parse orders fromIso toIso).map
    fun o =>
      if (extractItemsForOrder o).length < 1 then 0
      else (orderPairs o).count p).sum

end BA.Pairs

namespace BA.Bundles

/-- `GUMMIES_FLAVORS` of src/app/page.jsx lines 57-64 / 734-741. -/
def GUMMIES_FLAVORS : List String :=
  ["grape", "mango", "watermelon", "blueberry", "lemon", "pineapple"]

/-- `capitalize` of line 118 / 793. -/
def capitalize (s : String) : String :=
  match s.toList with
  | [] => s
  | c :: rest => String.mk (c.toUpper :: rest)

/-- JS `\w` word characters (ASCII letters, digits, underscore). -/
def isWordChar (c : Char) : Bool := c.isAlphanum || c = '_'

/-- The case-insensitive word-boundary regex test
`new RegExp("\\b" + flavor + "\\b", "i").test(s)` (lines 70-76). -/
def hasWordMatch (pat s : String) : Bool :=
  let cs := (lowerStr s).toList
  let ps := (lowerStr pat).toList
  (List.range (cs.length + 1)).any fun i =>
    decide ((cs.drop i).take ps.length = ps) &&
    (decide (i = 0) || !isWordChar (cs.getD (i - 1) ' ')) &&
    !isWordChar (cs.getD (i + ps.length) ' ')

/-- `/gummi/i.test(lower)` of line 130. -/
def containsGummi (name : String) : Bool := strIncludes (lowerStr name) "gummi"

/-- `normalizeProductName(rawName)` of lines 125-137, returning the
`(product, variant)` pair. -/
def normalizeProductName (rawName : String) : String × String :=
  if rawName = "" then ("Unknown", "")
  else
    let name := trimStr rawName
    if containsGummi name then ("Gummies", "")
    else
      let words := wordsOf name
      let short := " ".intercalate (words.take 2)
      ((if short ≠ "" then short else name), " ".intercalate (words.drop 2))

/-- A bundle-engine item (the objects pushed by `extractLineItems`);
`flavors = none` models the absence of the `.flavors` array. -/
structure BItem where
  productId : String
  displayName : String
  fullName : String
  variantId : String
  variantName : String
  flavors : Option (List String)
deriving DecidableEq, Repr

/-- Insertion into a JS `Set` (insertion-ordered, no duplicates). -/
def insertNew (l : List String) (x : String) : List String :=
  if x ∈ l then l else l ++ [x]

/-- `String(li?.name || "").trim()`. -/
def rawNameOf (li : LineItem) : String := trimStr (li.name.getD "")

/-- The collected `String(m.value)` list of lines 159-170. -/
def metaValuesOf (li : LineItem) : List String :=
  li.meta_data.filterMap (·.value)

/-- Add every flavor whose word regex matches `s` (in canonical flavor
order), capitalized, to the set. -/
def addFlavorMatches (fs : List String) (s : String) : List String :=
  GUMMIES_FLAVORS.foldl
    (fun a f => if hasWordMatch f s then insertNew a (capitalize f) else a) fs

/-- `mv.split(/[,|\\/]+/).map(trim).filter(Boolean)` of line 200. -/
def splitDelims (mv : String) : List String :=
  (((splitChars (fun c => c = ',' || c = '|' || c = '\\' || c = '/') mv).map
    trimStr).filter (· ≠ ""))

/-- The per-part fallback scan of lines 201-214: add every matching
flavor; if none matched, keep the raw part text. -/
def scanPart (fs : List String) (p : String) : List String :=
  let fs' := addFlavorMatches fs p
  if !GUMMIES_FLAVORS.any (fun f => hasWordMatch f p) && p.length > 0 then
    insertNew fs' p
  else fs'

/-- The fallback meta scan of lines 198-216. -/
def fallbackScan (fs : List String) (metaValues : List String) : List String :=
  metaValues.foldl (fun a mv => (splitDelims mv).foldl scanPart a) fs

/-- `meta_data.find(m => /flavor|flavour|size|color|variant|attribute/i
.test(String(m?.key || "")))` of lines 247-249. -/
def metaVariantOf (li : LineItem) : String :=
  match li.meta_data.find? (fun m =>
    ["flavor", "flavour", "size", "color", "variant", "attribute"].any
      (fun w => strIncludes (lowerStr (m.key.getD "")) w)) with
  | some m => m.value.getD ""
  | none => ""

/-- The non-gummies item pushed by lines 243-259. -/
def nonGummiesItem (li : LineItem) : BItem :=
  let rawName := rawNameOf li
  let norm := normalizeProductName rawName
  { productId := (li.product_id.or li.id).getD "null"
    displayName := norm.1
    fullName := if rawName ≠ "" then rawName else norm.1
    variantId := li.variation_id.getD "0"
    variantName :=
      trimStr (if metaVariantOf li ≠ "" then metaVariantOf li else norm.2)
    flavors := none }

/-- The exploded per-flavor gummies item of lines 221-229. -/
def explodedItem (fv : String) : BItem :=
  { productId := "gummies-" ++ fv
    displayName := "Gummies(" ++ fv ++ ")"
    fullName := "Gummies(" ++ fv ++ ")"
    variantId := "0", variantName := "", flavors := none }

/-- The unspecified exploded gummies item of lines 232-239. -/
def explodedUnspecified : BItem :=
  { productId := "gummies-unspecified"
    displayName := "Gummies(Unspecified)"
    fullName := "Gummies(Unspecified)"
    variantId := "0", variantName := "", flavors := none }

/-- The loop state of `extractLineItems`: pushed items, the order-level
gummies flavor set, and the `sawAnyGummiesLine` flag. -/
structure LState where
  items : List BItem
  flavors : List String
  saw : Bool

/-- One iteration of the `for (const li of raw)` loop of lines 153-260,
parameterized by the `explodeGummies` toggle. -/
def lineStep (explode : Bool) (st : LState) (li : LineItem) : LState :=
  let rawName := rawNameOf li
  let metaValues := metaValuesOf li
  let norm := normalizeProductName rawName
  if norm.1 = "Gummies" then
    let fl1 := addFlavorMatches st.flavors rawName
    let fl2 := metaValues.foldl addFlavorMatches fl1
    let fl3 :=
      if fl2.length = 0 ∧ metaValues.length > 0 then fallbackScan fl2 metaValues
      else fl2
    let pushed :=
      if explode then
        if fl3.length > 0 then st.items ++ fl3.map explodedItem
        else st.items ++ [explodedUnspecified]
      else st.items
    { items := pushed, flavors := fl3, saw := true }
  else
    { st with items := st.items ++ [nonGummiesItem li] }

/-- The consolidated gummies append of lines 262-285 (non-explode mode). -/
def gummiesAppend (st : LState) : List BItem :=
  if st.flavors.length > 0 then
    st.items ++ [{ productId := "gummies", displayName := "Gummies",
                   fullName := "Gummies", variantId := "0", variantName := "",
                   flavors := some st.flavors }]
  else if st.saw then
    st.items ++ [{ productId := "gummies", displayName := "Gummies",
                   fullName := "Gummies", variantId := "0", variantName := "",
                   flavors := some ["Unspecified"] }]
  else st.items

/-- Flavor-set merge applied when a duplicate key is a consolidated
gummies record (lines 293-298 keyed by `displayName`; lines 939-944
keyed by `productId`). -/
def mergeFlavors (guard : BItem → Bool) (ex it : BItem) : BItem :=
  if guard ex then
    match ex.flavors, it.flavors with
    | some fs1, some fs2 => { ex with flavors := some (fs2.foldl insertNew fs1) }
    | _, _ => ex
  else ex

/-- The insertion-ordered `Map` dedup of lines 287-302 / 305-314 /
933-948, keyed by `keyOf`, keeping the first occurrence and merging
flavor sets for duplicate consolidated-gummies keys. -/
def dedupeBy (keyOf : BItem → String) (guard : BItem → Bool) :
    List BItem → List BItem :=
  go []
where
  go (acc : List BItem) : List BItem → List BItem
    | [] => acc
    | it :: rest =>
        if acc.any (fun ex => keyOf ex = keyOf it) then
          go (acc.map fun ex =>
            if keyOf ex = keyOf it then mergeFlavors guard ex it else ex) rest
        else go (acc ++ [it]) rest

/-- `extractLineItems(order)` of src/app/page.jsx lines 145-315
(first variant, dedup keyed by `displayName`). -/
def extractLineItemsD (explode : Bool) (o : Order) : List BItem :=
  let st := o.line_items.foldl (lineStep explode) ⟨[], [], false⟩
  if !explode then
    dedupeBy (·.displayName) (fun ex => ex.displayName = "Gummies")
      (gummiesAppend st)
  else
    dedupeBy (·.displayName) (fun _ => false) st.items

/-- `extractLineItems(order)` of src/app/page.jsx lines 809-958
(second variant, identical per-line processing, dedup keyed by
`productId`). -/
def extractLineItemsP (explode : Bool) (o : Order) : List BItem :=
  let st := o.line_items.foldl (lineStep explode) ⟨[], [], false⟩
  if !explode then
    dedupeBy (·.productId) (fun ex => ex.productId = "gummies")
      (gummiesAppend st)
  else
    dedupeBy (·.productId) (fun _ => false) st.items

/-- `variantPartString(it)` of lines 343-354 / 979-989 (flavors sorted
by `localeCompare`, modelled as code-point order). -/
def variantPartString (it : BItem) : String :=
  if it.displayName = "Gummies" then
    let flavors := match it.flavors with
      | some fs => fs
      | none => []
    if flavors.length = 0 then "Gummies(Unspecified)"
    else
      "Gummies(" ++
        ",".intercalate (sortLe strLe flavors) ++ ")"
  else if it.variantName ≠ "" then
    it.displayName ++ "(" ++ it.variantName ++ ")"
  else it.displayName

/-- An order reference stored in a record's sample list:
`{id: order?.id ?? null, date: date_created ?? date_created_gmt ??
date_modified ?? null}` (lines 386-389 / 1024-1027). -/
def SampleRef : Type := Option String × Option String

instance : DecidableEq SampleRef := by unfold SampleRef; infer_instance

/-- The reference pushed for an order. -/
def refOf (o : Order) : SampleRef :=
  (o.id, o.date_created.or (o.date_created_gmt.or o.date_modified))

/-- An aggregate record `{count, variants, sample}` (line 381 / 1019);
the variants map is a counter function. -/
structure BRec where
  count : ℕ
  variants : String → ℕ
  sample : List SampleRef

/-- The fresh record `{count: 0, variants: new Map(), sample: []}`. -/
def emptyRec : BRec := ⟨0, fun _ => 0, []⟩

/-- One increment of a record (lines 383-392 / 1021-1029): bump the
count and the variant tally, and push the order reference while fewer
than 6 samples are stored. -/
def updateRec (r : BRec) (vk : String) (ref : SampleRef) : BRec :=
  { count := r.count + 1
    variants := fun x => if x = vk then r.variants x + 1 else r.variants x
    sample := if r.sample.length < 6 then r.sample ++ [ref] else r.sample }

/-- Status eligibility of the first bundle variant (lines 363-364,
also the `totalEligibleOrders` reduce of lines 101-104):
`completed` or `processing`. -/
def statusOkD (o : Order) : Bool :=
  let st := lowerStr (o.status.getD "")
  st = "completed" || st = "processing"

/-- Status eligibility of the second bundle variant (lines 998-999 and
777-779): `completed`, `processing` or `paid`. -/
def statusOkP (o : Order) : Bool :=
  let st := lowerStr (o.status.getD "")
  st = "completed" || st = "processing" || st = "paid"

/-- `totalEligibleOrders` of the first bundle variant (lines 99-105). -/
def totalEligibleD (orders : List Order) : ℕ :=
  orders.foldl (fun acc o => acc + (if statusOkD o then 1 else 0)) 0

/-- `totalEligibleOrders` of the second bundle variant (lines 775-781). -/
def totalEligibleP (orders : List Order) : ℕ :=
  orders.foldl (fun acc o => acc + (if statusOkP o then 1 else 0)) 0

/-- The bundle key of the first variant: displayNames joined with
`" | "` (line 377). -/
def keyD (comb : List BItem) : String :=
  " | ".intercalate (comb.map (·.displayName))

/-- The bundle key of the second variant: productIds joined with
`" | "` (line 1012). -/
def keyP (comb : List BItem) : String :=
  " | ".intercalate (comb.map (·.productId))

/-- The variant key of both variants (line 379 / 1017). -/
def variantKeyOf (comb : List BItem) : String :=
  " | ".intercalate (comb.map variantPartString)

/-- The inner `for (const comb of combs)` fold (lines 375-392),
parameterized by the bundle-key builder. -/
def processCombs (keyOf : List BItem → String) (ref : SampleRef)
    (m : String → BRec) : List (List BItem) → (String → BRec)
  | [] => m
  | comb :: rest =>
      processCombs keyOf ref
        (fun k => if k = keyOf comb
                  then updateRec (m (keyOf comb)) (variantKeyOf comb) ref
                  else m k) rest

/-- The sorted item list of an order (line 370: `localeCompare` on the
sort field, modelled as code-point order on it). -/
def sortedItems (extract : Order → List BItem) (sortKeyOf : BItem → String)
    (o : Order) : List BItem :=
  sortLe (fun a b => strLe (sortKeyOf a) (sortKeyOf b)) (extract o)

/-- Per-order processing of the bundle aggregation (lines 362-393 /
997-1031), parameterized by status set, item extraction, sort field and
bundle-key builder; size buckets outside 1..7 are untouched. -/
def processOrderB (statusOk : Order → Bool) (extract : Order → List BItem)
    (sortKeyOf : BItem → String) (keyOf : List BItem → String)
    (M : ℕ → String → BRec) (o : Order) : ℕ → String → BRec :=
  if !statusOk o then M
  else
    let items := sortedItems extract sortKeyOf o
    if items.length < 1 then M
    else fun s =>
      if 1 ≤ s ∧ s ≤ 7 ∧ s ≤ items.length
      then processCombs keyOf (refOf o) (M s) (combinations items s)
      else M s

/-- The `bundlesBySize` maps of the first (displayName-keyed) variant,
lines 357-393, as a function size → bundleKey → record. -/
def bundlesD (explode : Bool) (orders : List Order) : ℕ → String → BRec :=
  orders.foldl
    (processOrderB statusOkD (extractLineItemsD explode) (·.displayName) keyD)
    (fun _ _ => emptyRec)

/-- The `bundlesBySize` maps of the second (productId-keyed) variant,
lines 992-1031. -/
def bundlesP (explode : Bool) (orders : List Order) : ℕ → String → BRec :=
  orders.foldl
    (processOrderB statusOkP (extractLineItemsP explode) (·.productId) keyP)
    (fun _ _ => emptyRec)

/-- The combinations an order feeds into size bucket `s` (the loop of
lines 372-380 for one order), or `[]` when the order yields none. -/
def orderCombsB (extract : Order → List BItem) (sortKeyOf : BItem → String)
    (o : Order) (s : ℕ) : List (List BItem) :=
  let items := sortedItems extract sortKeyOf o
  if items.length < 1 then []
  else if 1 ≤ s ∧ s ≤ 7 ∧ s ≤ items.length then combinations items s
  else []

/-- The increment events an order generates at `(s, key)`: one
`(variantKey, ref)` per matching combination, in emission order. -/
def orderEventsB (statusOk : Order → Bool) (extract : Order → List BItem)
    (sortKeyOf : BItem → String) (keyOf : List BItem → String)
    (o : Order) (s : ℕ) (key : String) : List (String × SampleRef) :=
  if statusOk o then
    ((orderCombsB extract sortKeyOf o s).filter (fun c => keyOf c = key)).map
      (fun c => (variantKeyOf c, refOf o))
  else []

/-- All increment events at `(s, key)` across a dataset, in order. -/
def allEventsB (statusOk : Order → Bool) (extract : Order → List BItem)
    (sortKeyOf : BItem → String) (keyOf : List BItem → String)
    (orders : List Order) (s : ℕ) (key : String) : List (String × SampleRef) :=
  orders.flatMap (fun o => orderEventsB statusOk extract sortKeyOf keyOf o s key)

/-- Folding a record through a list of increment events. -/
def foldEvents (r : BRec) (evs : List (String × SampleRef)) : BRec :=
  evs.foldl (fun r ev => updateRec r ev.1 ev.2) r

/-- Number of combinations of an order that present the (sorted) name
list `L` to the first bundle variant's aggregation at size `L.length`. -/
def orderNameCombCount (explode : Bool) (o : Order) (L : List String) : ℕ :=
  ((orderCombsB (extractLineItemsD explode) (·.displayName) o L.length).map
    (fun c => c.map (·.displayName))).count L

/-- Number of contribution events the first bundle variant records for
the itemset whose sorted displayName list is `L`, across a dataset. -/
def nameEventCount (explode : Bool) (orders : List Order)
    (L : List String) : ℕ :=
  (orders.map fun o =>
    if statusOkD o then orderNameCombCount explode o L else 0).sum

/-- The increment events of the first (displayName-keyed) bundle
variant at `(s, key)` across a dataset. -/
def eventsD (explode : Bool) (orders : List Order) (s : ℕ)
    (key : String) : List (String × SampleRef) :=
  allEventsB statusOkD (extractLineItemsD explode) (·.displayName) keyD
    orders s key

/-- The increment events of the second (productId-keyed) bundle variant
at `(s, key)` across a dataset. -/
def eventsP (explode : Bool) (orders : List Order) (s : ℕ)
    (key : String) : List (String × SampleRef) :=
  allEventsB statusOkP (extractLineItemsP explode) (·.productId) keyP
    orders s key

end BA.Bundles

namespace BA

/-- A date parser that recognises nothing (all dates invalid). -/
def parseNone : String → Option Int := fun _ => none

/-- A small concrete date parser used by witnesses. -/
def parseT : String → Option Int := fun s =>
  if s = "D1" then some 1 else if s = "D5" then some 5
  else if s = "D9" then some 9 else none

/-- A plain line item with the given product id, name, quantity and
line total. -/
def mkLine (pid nm : String) (qty tot : ℚ) : LineItem :=
  { product_id := some pid, name := some nm, quantity := some qty,
    total := some tot }

/-- An eligible order whose two items have keys `7::0` and
`8::0||9::0` (the latter from a string product id). -/
def oC1a : Order :=
  { id := some "1001", status := some "completed", total := some 10,
    total_refunded := some 0,
    line_items := [mkLine "7" "Alpha One" 1 5, mkLine "8::0||9" "Beta Two" 1 5] }

/-- An eligible order whose two items have keys `7::0||8::0` and
`9::0`; its canonical pair key collides with `oC1a`'s. -/
def oC1b : Order :=
  { id := some "1002", status := some "completed", total := some 10,
    total_refunded := some 0,
    line_items := [mkLine "7::0||8" "Gamma Three" 1 5, mkLine "9" "Delta Four" 1 5] }

/-- A `completed` order with monetary total 0 and one normal line item. -/
def oC2 : Order :=
  { id := some "2001", status := some "completed", total := some 0,
    total_refunded := some 0,
    line_items := [mkLine "1" "Alpha Beta" 1 5] }

/-- A `completed`, non-refunded order whose only line item has
quantity 0 (a zero-signal line). -/
def oC6 : Order :=
  { id := some "6001", status := some "completed", total := some 10,
    total_refunded := some 0,
    line_items := [mkLine "1" "Alpha Beta" 0 0] }

/-- An order with two line items that resolve to the same canonical key
`5::0`. -/
def oC4 : Order :=
  { id := some "4001", status := some "completed", total := some 10,
    total_refunded := some 0,
    line_items := [mkLine "5" "Gamma Delta" 1 3, mkLine "5" "Gamma Delta Extra" 2 4] }

/-- An order with a parsable `date_paid` (`D5` under `parseT`). -/
def oC7 : Order :=
  { id := some "7001", status := some "completed", total := some 10,
    total_refunded := some 0, date_paid := some "D5",
    line_items := [mkLine "1" "Alpha Beta" 1 5] }

/-- An order with no date fields at all. -/
def oC7n : Order :=
  { id := some "7002", status := some "completed", total := some 10,
    total_refunded := some 0,
    line_items := [mkLine "1" "Alpha Beta" 1 5] }

/-- A `processing` order with two distinct plain items. -/
def oW1 : Order :=
  { id := some "9001", status := some "processing", total := some 10,
    total_refunded := some 0,
    line_items := [mkLine "1" "Red Shirt" 1 5, mkLine "2" "Blue Hat" 1 5] }

/-- A line item named `Widget Pro Max` with product id 11. -/
def liC10a : LineItem :=
  { product_id := some "11", variation_id := some "3",
    name := some "Widget Pro Max", quantity := some 1, total := some 5 }

/-- A line item named `Widget Pro Mini` with product id 12. -/
def liC10b : LineItem :=
  { product_id := some "12", variation_id := some "4",
    name := some "Widget Pro Mini", quantity := some 1, total := some 5 }

/-- Two line items of `oC10` share the first two name words but have
different product and variation ids. -/
def oC10 : Order :=
  { id := some "9101", status := some "completed", total := some 10,
    total_refunded := some 0, line_items := [liC10a, liC10b] }

end BA

/-!
Theorems.  General lemmas about the list and counter helpers come
first, then per-engine bridge lemmas, then the claim theorems.
-/

namespace BA

theorem insertLe_perm {α : Type} (le : α → α → Bool) (x : α) (l : List α) :
    List.Perm (insertLe le x l) (x :: l) := by
  induction l with
  | nil => simp [insertLe]
  | cons y ys ih =>
      by_cases h : le x y = true
      · simp [insertLe, h]
      · simp only [insertLe, h]
        exact ((ih.cons y).trans (List.Perm.swap x y ys))

theorem sortLe_perm {α : Type} (le : α → α → Bool) (l : List α) :
    List.Perm (sortLe le l) l := by
  induction l with
  | nil => simp [sortLe]
  | cons x xs ih => exact (insertLe_perm le x (sortLe le xs)).trans (ih.cons x)

theorem bumpAll_apply (counts : String → ℕ) (ks : List String) (x : String) :
    bumpAll counts ks x = counts x + ks.count x := by
  induction ks generalizing counts with
  | nil => simp [bumpAll]
  | cons k ks ih =>
      simp only [bumpAll, ih, List.count_cons]
      by_cases h : x = k
      · subst h
        simp only [if_pos rfl, beq_self_eq_true, if_true]
        omega
      · have h' : (k == x) = false := beq_eq_false_iff_ne.2 (Ne.symm h)
        simp only [if_neg h, h', Bool.false_eq_true, if_false]
        omega

theorem bumpDistinct_apply (counts : String → ℕ) (seen ks : List String)
    (x : String) :
    bumpDistinct counts seen ks x =
      counts x + (if x ∈ ks ∧ x ∉ seen then 1 else 0) := by
  induction ks generalizing counts seen with
  | nil => simp [bumpDistinct]
  | cons k ks ih =>
      simp only [bumpDistinct]
      by_cases hk : k ∈ seen
      · simp only [if_pos hk, ih]
        by_cases hx : x = k
        · subst hx; simp [hk]
        · simp [hx, List.mem_cons]
      · simp only [if_neg hk, ih]
        by_cases hx : x = k
        · subst hx
          simp [hk, List.mem_cons]
        · simp only [List.mem_cons, hx, false_or, if_neg hx]
          by_cases hxs : x ∈ ks <;> by_cases hxseen : x ∈ seen <;>
            simp [hx, hxs, hxseen]

theorem mem_of_mem_pairsOf {α : Type} {p : α × α} :
    ∀ {l : List α}, p ∈ pairsOf l → p.1 ∈ l ∧ p.2 ∈ l := by
  intro l
  induction l with
  | nil => simp [pairsOf]
  | cons x xs ih =>
      intro h
      rcases List.mem_append.1 h with h1 | h2
      · rcases List.mem_map.1 h1 with ⟨y, hy, rfl⟩
        exact ⟨List.mem_cons_self _ _, List.mem_cons_of_mem _ hy⟩
      · exact ⟨List.mem_cons_of_mem _ (ih h2).1, List.mem_cons_of_mem _ (ih h2).2⟩

theorem count_le_one_of_nodup {α : Type} [BEq α] [LawfulBEq α] {l : List α}
    (h : l.Nodup) (c : α) : l.count c ≤ 1 := by
  induction l with
  | nil => simp
  | cons x xs ih =>
      rcases List.nodup_cons.1 h with ⟨hx, hxs⟩
      rw [List.count_cons]
      by_cases hc : (x == c) = true
      · have hxc : x = c := eq_of_beq hc
        subst hxc
        have h0 : xs.count x = 0 := List.count_eq_zero.2 hx
        rw [h0]
        simp [hc]
      · have hc' : (x == c) = false := by simpa using hc
        rw [hc']
        simpa using ih hxs

theorem pairsOf_count_eq_zero {α : Type} [BEq α] [LawfulBEq α] {a b : α}
    {l : List α} (h : a ∉ l) : (pairsOf l).count (a, b) = 0 := by
  rw [List.count_eq_zero]
  intro hmem
  exact h (mem_of_mem_pairsOf hmem).1

theorem count_map_pair {α : Type} [BEq α] [LawfulBEq α] (a b : α)
    (xs : List α) :
    (xs.map fun y => (a, y)).count (a, b) = xs.count b := by
  induction xs with
  | nil => simp
  | cons z zs ih =>
      simp only [List.map_cons, List.count_cons, ih]
      by_cases h : (z == b) = true
      · have hzb : z = b := eq_of_beq h
        subst hzb
        simp
      · have h2 : (z == b) = false := by simpa using h
        have h1 : (((a, z) : α × α) == (a, b)) = false := by
          have : ¬((a, z) : α × α) = (a, b) := by
            intro hcontra
            have hz : z = b := (Prod.ext_iff.1 hcontra).2
            exact h (by simp [hz])
          simpa using this
        simp [h1, h2]

theorem pairsOf_count_le_one {α : Type} [BEq α] [LawfulBEq α] {l : List α}
    (h : l.Nodup) (a b : α) : (pairsOf l).count (a, b) ≤ 1 := by
  induction l with
  | nil => simp [pairsOf]
  | cons x xs ih =>
      rcases List.nodup_cons.1 h with ⟨hx, hxs⟩
      simp only [pairsOf, List.count_append]
      by_cases hax : a = x
      · subst hax
        have h2 : (pairsOf xs).count (a, b) = 0 := pairsOf_count_eq_zero hx
        have h1 : (xs.map fun y => (a, y)).count (a, b) ≤ 1 := by
          rw [count_map_pair]
          exact count_le_one_of_nodup hxs b
        omega
      · have h1 : (xs.map fun y => (x, y)).count (a, b) = 0 := by
          rw [List.count_eq_zero]
          intro hmem
          rcases List.mem_map.1 hmem with ⟨y, _, hy⟩
          exact hax (by simpa using congrArg Prod.fst hy.symm)
        rw [h1]
        simpa using ih hxs

theorem count_map_eq_countP {α β : Type} [BEq β] [LawfulBEq β] (f : α → β)
    (l : List α) (d : β) :
    (l.map f).count d = l.countP (fun a => f a == d) := by
  induction l with
  | nil => simp
  | cons x xs ih =>
      simp only [List.map_cons, List.count_cons, List.countP_cons, ih]

theorem count_le_count_map {α β : Type} [BEq α] [LawfulBEq α] [BEq β]
    [LawfulBEq β] (f : α → β) (l : List α) (p : α) :
    l.count p ≤ (l.map f).count (f p) := by
  rw [count_map_eq_countP, List.count_eq_countP]
  refine List.countP_mono_left ?_
  intro a _ h
  have ha : a = p := by simpa using h
  simp [ha]

theorem combAux_perm {α : Type} (l : List α) (k : ℕ) :
    List.Perm (combAux l k) (List.sublistsLen k l) := by
  induction l generalizing k with
  | nil =>
      cases k with
      | zero => simp [combAux]
      | succ k => simp [combAux]
  | cons x xs ih =>
      cases k with
      | zero => simp [combAux]
      | succ k =>
          simp only [combAux, List.sublistsLen_succ_cons]
          exact List.perm_append_comm.trans
            (List.Perm.append (ih (k + 1)) ((ih k).map _))

theorem combinations_perm {α : Type} (l : List α) (k : ℕ) :
    List.Perm (combinations l k) (List.sublistsLen k l) := by
  unfold combinations
  by_cases h : l.length < k
  · rw [if_pos h, List.sublistsLen_of_length_lt h]
  · rw [if_neg h]
    exact combAux_perm l k

theorem combinations_length {α : Type} (l : List α) (k : ℕ) :
    (combinations l k).length = Nat.choose l.length k :=
  (combinations_perm l k).length_eq.trans (List.length_sublistsLen k l)

theorem mem_combinations {α : Type} {c l : List α} {k : ℕ} :
    c ∈ combinations l k ↔ c.Sublist l ∧ c.length = k := by
  rw [(combinations_perm l k).mem_iff, List.mem_sublistsLen]

theorem nodup_combinations {α : Type} {l : List α} (h : l.Nodup) (k : ℕ) :
    (combinations l k).Nodup :=
  ((combinations_perm l k).nodup_iff).2 (List.nodup_sublistsLen k h)

theorem count_combinations_le_one {α : Type} [BEq α] [LawfulBEq α]
    {l : List α} (h : l.Nodup) (k : ℕ) (c : List α) :
    (combinations l k).count c ≤ 1 :=
  count_le_one_of_nodup (nodup_combinations h k) c

theorem count_combinations_eq_one {α : Type} [BEq α] [LawfulBEq α]
    {l c : List α} (h : l.Nodup) (hc : c.Sublist l) :
    (combinations l c.length).count c = 1 := by
  have h1 : (combinations l c.length).count c ≤ 1 :=
    count_combinations_le_one h c.length c
  have h2 : 0 < (combinations l c.length).count c := by
    rw [List.count_pos_iff]
    exact mem_combinations.2 ⟨hc, rfl⟩
  omega

theorem combAux_map {α β : Type} (f : α → β) (l : List α) (k : ℕ) :
    combAux (l.map f) k = (combAux l k).map (fun c => c.map f) := by
  induction l generalizing k with
  | nil =>
      cases k with
      | zero => simp [combAux]
      | succ k => simp [combAux]
  | cons x xs ih =>
      cases k with
      | zero => simp [combAux]
      | succ k =>
          simp only [List.map_cons, combAux, ih, List.map_append,
            List.map_map]
          rfl

theorem combinations_map {α β : Type} (f : α → β) (l : List α) (k : ℕ) :
    combinations (l.map f) k = (combinations l k).map (fun c => c.map f) := by
  unfold combinations
  rw [List.length_map]
  by_cases h : l.length < k
  · simp [h]
  · rw [if_neg h, if_neg h]
    exact combAux_map f l k

end BA


namespace BA

theorem enumAll_length {α : Type} (items : List α) (K : ℕ) :
    (enumAll items K).length =
      ∑ k ∈ Finset.Icc 1 (min K items.length), Nat.choose items.length k := by
  induction K with
  | zero => simp [enumAll]
  | succ K ih =>
      have hconcat : List.range' 1 (K + 1) = List.range' 1 K ++ [K + 1] := by
        have h0 := @List.range'_concat 1 1 K
        have h1 : 1 + 1 * K = K + 1 := by omega
        rw [h1] at h0
        exact h0
      have hterm :
          (if items.length < K + 1 then [] else combinations items (K + 1)).length
            = Nat.choose items.length (K + 1) := by
        by_cases h : items.length < K + 1
        · rw [if_pos h]
          simp [Nat.choose_eq_zero_of_lt h]
        · rw [if_neg h]
          exact combinations_length items (K + 1)
      have hlen : (enumAll items (K + 1)).length =
          (enumAll items K).length + Nat.choose items.length (K + 1) := by
        unfold enumAll
        rw [hconcat, List.flatMap_append]
        simp [hterm]
      rw [hlen, ih]
      by_cases h : K + 1 ≤ items.length
      · have h1 : min (K + 1) items.length = K + 1 := Nat.min_eq_left h
        have h2 : min K items.length = K := Nat.min_eq_left (by omega)
        rw [h1, h2, Finset.sum_Icc_succ_top (by omega : 1 ≤ K + 1)]
      · have h1 : min (K + 1) items.length = items.length :=
          Nat.min_eq_right (by omega)
        have h2 : min K items.length = items.length :=
          Nat.min_eq_right (by omega)
        have h3 : Nat.choose items.length (K + 1) = 0 :=
          Nat.choose_eq_zero_of_lt (by omega)
        rw [h1, h2, h3, Nat.add_zero]

end BA

namespace BA.Pairs

theorem dedupeByKeyAux_keys_mem (seen : List String) (l : List PItem)
    (k : String) :
    k ∈ (dedupeByKeyAux seen l).map (·.key) ↔
      k ∈ l.map (·.key) ∧ k ∉ seen := by
  induction l generalizing seen with
  | nil => simp [dedupeByKeyAux]
  | cons it rest ih =>
      simp only [dedupeByKeyAux]
      by_cases hs : it.key ∈ seen
      · rw [if_pos hs, ih]
        simp only [List.map_cons, List.mem_cons]
        constructor
        · rintro ⟨h1, h2⟩
          exact ⟨Or.inr h1, h2⟩
        · rintro ⟨h1 | h1, h2⟩
          · exact absurd (h1 ▸ hs) h2
          · exact ⟨h1, h2⟩
      · rw [if_neg hs]
        simp only [List.map_cons, List.mem_cons, ih]
        by_cases hk : k = it.key
        · subst hk
          simp [hs, List.mem_cons]
        · simp [List.mem_cons, hk]

theorem dedupeByKeyAux_keys_nodup (seen : List String) (l : List PItem) :
    ((dedupeByKeyAux seen l).map (·.key)).Nodup := by
  induction l generalizing seen with
  | nil => simp [dedupeByKeyAux]
  | cons it rest ih =>
      simp only [dedupeByKeyAux]
      by_cases hs : it.key ∈ seen
      · rw [if_pos hs]; exact ih seen
      · rw [if_neg hs]
        simp only [List.map_cons, List.nodup_cons]
        refine ⟨fun hmem => ?_, ih _⟩
        have := (dedupeByKeyAux_keys_mem _ _ _).1 hmem
        exact this.2 (List.mem_cons_self _ _)

theorem orderKeyList_nodup (o : Order) : (orderKeyList o).Nodup := by
  unfold orderKeyList extractItemsForOrder
  exact dedupeByKeyAux_keys_nodup [] (preItems o)

theorem mem_orderKeyList_of_resolves {o : Order} {k : String}
    (h : ∃ li ∈ o.line_items, lineCanonKey li = some k) :
    k ∈ orderKeyList o := by
  rcases h with ⟨li, hli, hk⟩
  unfold orderKeyList extractItemsForOrder
  rw [dedupeByKeyAux_keys_mem]
  refine ⟨?_, List.not_mem_nil k⟩
  unfold preItems
  rw [List.map_append, List.mem_append]
  unfold lineCanonKey at hk
  by_cases hq : lineQty li ≤ 0
  · rw [if_pos hq] at hk; exact absurd hk (by simp)
  · rw [if_neg hq] at hk
    by_cases ht : lineTotal li ≤ 0
    · rw [if_pos ht] at hk; exact absurd hk (by simp)
    · rw [if_neg ht] at hk
      by_cases hg : isGummiesName (lineName li) = true
      · rw [if_pos hg] at hk
        right
        have hsaw : sawGummiesLine o = true := by
          unfold sawGummiesLine
          rw [List.any_eq_true]
          refine ⟨li, hli, ?_⟩
          rw [Bool.and_eq_true, Bool.and_eq_true]
          refine ⟨⟨?_, ?_⟩, hg⟩
          · exact decide_eq_true (lt_of_not_le hq)
          · exact decide_eq_true (lt_of_not_le ht)
        simp only [hsaw, if_true]
        simp only [Option.some.injEq] at hk
        simp [← hk]
      · rw [if_neg hg] at hk
        left
        simp only [Option.some.injEq] at hk
        rw [List.mem_map]
        refine ⟨⟨lineKey li, lineLabel li⟩, ?_, by simpa using hk⟩
        rw [List.mem_filterMap]
        refine ⟨li, hli, ?_⟩
        unfold linePItem
        rw [if_neg hq, if_neg ht, if_neg hg]

end BA.Pairs

namespace BA.Pairs

theorem sortedKeys_perm (o : Order) :
    List.Perm (sortedKeys o) (orderKeyList o) := sortLe_perm _ _

theorem sortedKeys_nodup (o : Order) : (sortedKeys o).Nodup :=
  ((sortedKeys_perm o).nodup_iff).2 (orderKeyList_nodup o)

theorem extractItemsForOrder_eq_nil_of_short (o : Order)
    (h : (extractItemsForOrder o).length < 1) : extractItemsForOrder o = [] :=
  List.length_eq_zero.1 (by omega)

theorem processOrderCounts_item (st : PairState) (o : Order) (k : String) :
    (processOrderCounts st o).itemCounts k =
      st.itemCounts k + (if k ∈ orderKeyList o then 1 else 0) := by
  unfold processOrderCounts
  by_cases h : (extractItemsForOrder o).length < 1
  · rw [if_pos h]
    have h0 : orderKeyList o = [] := by
      unfold orderKeyList
      rw [extractItemsForOrder_eq_nil_of_short o h]
      rfl
    simp [h0]
  · rw [if_neg h]
    show bumpDistinct st.itemCounts [] ((extractItemsForOrder o).map (·.key)) k
      = _
    rw [bumpDistinct_apply]
    simp [orderKeyList]

theorem orderPairs_eq_nil_of_short (o : Order)
    (h : (extractItemsForOrder o).length < 1) : orderPairs o = [] := by
  unfold orderPairs sortedKeys orderKeyList
  rw [extractItemsForOrder_eq_nil_of_short o h]
  rfl

theorem processOrderCounts_pair (st : PairState) (o : Order) (pk : String) :
    (processOrderCounts st o).pairCounts pk =
      st.pairCounts pk + ((orderPairs o).map pairKeyStr).count pk := by
  unfold processOrderCounts
  by_cases h : (extractItemsForOrder o).length < 1
  · rw [if_pos h, orderPairs_eq_nil_of_short o h]
    simp
  · rw [if_neg h]
    show bumpAll st.pairCounts ((orderPairs o).map pairKeyStr) pk = _
    rw [bumpAll_apply]

theorem foldl_processOrderCounts_item (os : List Order) (st : PairState)
    (k : String) :
    (os.foldl processOrderCounts st).itemCounts k =
      st.itemCounts k +
        (os.map fun o => if k ∈ orderKeyList o then 1 else 0).sum := by
  induction os generalizing st with
  | nil => simp
  | cons o os ih =>
      simp only [List.foldl_cons, List.map_cons, List.sum_cons, ih,
        processOrderCounts_item]
      omega

theorem foldl_processOrderCounts_pair (os : List Order) (st : PairState)
    (pk : String) :
    (os.foldl processOrderCounts st).pairCounts pk =
      st.pairCounts pk +
        (os.map fun o => ((orderPairs o).map pairKeyStr).count pk).sum := by
  induction os generalizing st with
  | nil => simp
  | cons o os ih =>
      simp only [List.foldl_cons, List.map_cons, List.sum_cons, ih,
        processOrderCounts_pair]
      omega

theorem computeCounts_item (parse : String → Option Int) (os : List Order)
    (f t : Option String) (k : String) :
    (computeCounts parse os f t).itemCounts k =
      ((eligibleOrders parse os f t).map
        fun o => if k ∈ orderKeyList o then 1 else 0).sum := by
  unfold computeCounts
  rw [foldl_processOrderCounts_item]
  simp [initState]

theorem computeCounts_pair (parse : String → Option Int) (os : List Order)
    (f t : Option String) (pk : String) :
    (computeCounts parse os f t).pairCounts pk =
      ((eligibleOrders parse os f t).map
        fun o => ((orderPairs o).map pairKeyStr).count pk).sum := by
  unfold computeCounts
  rw [foldl_processOrderCounts_pair]
  simp [initState]

theorem orderPairs_count_le_one (o : Order) (p : String × String) :
    (orderPairs o).count p ≤ 1 :=
  pairsOf_count_le_one (sortedKeys_nodup o) p.1 p.2

theorem orderPairs_count_le_indicator (o : Order) (a b : String) :
    (orderPairs o).count (a, b) ≤ (if a ∈ orderKeyList o then 1 else 0) := by
  by_cases hm : a ∈ orderKeyList o
  · rw [if_pos hm]
    exact orderPairs_count_le_one o (a, b)
  · rw [if_neg hm]
    have : a ∉ sortedKeys o := fun hc => hm ((sortedKeys_perm o).mem_iff.1 hc)
    simp [orderPairs, pairsOf_count_eq_zero this]

theorem orderPairs_count_le_indicator_right (o : Order) (a b : String) :
    (orderPairs o).count (a, b) ≤ (if b ∈ orderKeyList o then 1 else 0) := by
  by_cases hm : b ∈ orderKeyList o
  · rw [if_pos hm]
    exact orderPairs_count_le_one o (a, b)
  · rw [if_neg hm]
    have hz : (orderPairs o).count (a, b) = 0 := by
      rw [List.count_eq_zero]
      intro hmem
      exact hm ((sortedKeys_perm o).mem_iff.1 (mem_of_mem_pairsOf hmem).2)
    omega

end BA.Pairs

namespace BA.Bundles

theorem foldEvents_append (r : BRec) (e1 e2 : List (String × SampleRef)) :
    foldEvents r (e1 ++ e2) = foldEvents (foldEvents r e1) e2 := by
  unfold foldEvents
  rw [List.foldl_append]

theorem foldEvents_count (r : BRec) (evs : List (String × SampleRef)) :
    (foldEvents r evs).count = r.count + evs.length := by
  induction evs generalizing r with
  | nil => simp [foldEvents]
  | cons e es ih =>
      show (foldEvents (updateRec r e.1 e.2) es).count = _
      rw [ih]
      simp only [updateRec, List.length_cons]
      omega

theorem foldEvents_sample (r : BRec) (evs : List (String × SampleRef)) :
    (foldEvents r evs).sample =
      r.sample ++ (evs.map (·.2)).take (6 - r.sample.length) := by
  induction evs generalizing r with
  | nil => simp [foldEvents]
  | cons e es ih =>
      show (foldEvents (updateRec r e.1 e.2) es).sample = _
      rw [ih]
      simp only [updateRec]
      by_cases h : r.sample.length < 6
      · rw [if_pos h]
        have h6 : 6 - r.sample.length = (6 - (r.sample.length + 1)) + 1 := by
          omega
        rw [List.length_append]
        simp only [List.length_cons, List.length_nil, List.map_cons]
        rw [List.append_assoc, h6, List.take_succ_cons]
        rfl
      · rw [if_neg h]
        have h0 : 6 - r.sample.length = 0 := by omega
        simp [h0]

theorem processCombs_apply (keyOf : List BItem → String) (ref : SampleRef)
    (m : String → BRec) (combs : List (List BItem)) (key : String) :
    processCombs keyOf ref m combs key =
      foldEvents (m key)
        ((combs.filter (fun c => keyOf c = key)).map
          (fun c => (variantKeyOf c, ref))) := by
  induction combs generalizing m with
  | nil => simp [processCombs, foldEvents]
  | cons c cs ih =>
      simp only [processCombs]
      rw [ih]
      by_cases h : keyOf c = key
      · rw [List.filter_cons_of_pos (by simpa using h)]
        simp only [List.map_cons]
        rw [if_pos h.symm, h]
        rfl
      · rw [List.filter_cons_of_neg (by simpa using h)]
        rw [if_neg fun hc : key = keyOf c => h hc.symm]

theorem processOrderB_apply (statusOk : Order → Bool)
    (extract : Order → List BItem) (sortKeyOf : BItem → String)
    (keyOf : List BItem → String) (M : ℕ → String → BRec) (o : Order)
    (s : ℕ) (key : String) :
    processOrderB statusOk extract sortKeyOf keyOf M o s key =
      foldEvents (M s key)
        (orderEventsB statusOk extract sortKeyOf keyOf o s key) := by
  unfold processOrderB orderEventsB orderCombsB
  by_cases hst : statusOk o = true
  · simp only [hst, Bool.not_true, Bool.false_eq_true, if_false, if_true]
    by_cases hlen : (sortedItems extract sortKeyOf o).length < 1
    · rw [if_pos hlen, if_pos hlen]
      simp [foldEvents]
    · rw [if_neg hlen, if_neg hlen]
      by_cases hs : 1 ≤ s ∧ s ≤ 7 ∧ s ≤ (sortedItems extract sortKeyOf o).length
      · rw [if_pos hs, if_pos hs]
        exact processCombs_apply keyOf (refOf o) (M s) _ key
      · rw [if_neg hs, if_neg hs]
        simp [foldEvents]
  · have hst' : statusOk o = false := by simpa using hst
    simp [hst', foldEvents]

theorem foldl_processOrderB (statusOk : Order → Bool)
    (extract : Order → List BItem) (sortKeyOf : BItem → String)
    (keyOf : List BItem → String) (os : List Order) (M : ℕ → String → BRec)
    (s : ℕ) (key : String) :
    (os.foldl (processOrderB statusOk extract sortKeyOf keyOf) M) s key =
      foldEvents (M s key)
        (allEventsB statusOk extract sortKeyOf keyOf os s key) := by
  induction os generalizing M with
  | nil => simp [allEventsB, foldEvents]
  | cons o os ih =>
      simp only [List.foldl_cons]
      rw [ih]
      unfold allEventsB
      rw [List.flatMap_cons, foldEvents_append, processOrderB_apply]

theorem bundlesD_apply (explode : Bool) (os : List Order) (s : ℕ)
    (key : String) :
    bundlesD explode os s key =
      foldEvents emptyRec
        (allEventsB statusOkD (extractLineItemsD explode) (·.displayName)
          keyD os s key) := by
  unfold bundlesD
  rw [foldl_processOrderB]

theorem bundlesP_apply (explode : Bool) (os : List Order) (s : ℕ)
    (key : String) :
    bundlesP explode os s key =
      foldEvents emptyRec
        (allEventsB statusOkP (extractLineItemsP explode) (·.productId)
          keyP os s key) := by
  unfold bundlesP
  rw [foldl_processOrderB]

theorem bundlesD_count (explode : Bool) (os : List Order) (s : ℕ)
    (key : String) :
    (bundlesD explode os s key).count =
      (allEventsB statusOkD (extractLineItemsD explode) (·.displayName)
        keyD os s key).length := by
  rw [bundlesD_apply, foldEvents_count]
  simp [emptyRec]

theorem bundlesP_count (explode : Bool) (os : List Order) (s : ℕ)
    (key : String) :
    (bundlesP explode os s key).count =
      (allEventsB statusOkP (extractLineItemsP explode) (·.productId)
        keyP os s key).length := by
  rw [bundlesP_apply, foldEvents_count]
  simp [emptyRec]

theorem bundlesD_sample (explode : Bool) (os : List Order) (s : ℕ)
    (key : String) :
    (bundlesD explode os s key).sample =
      ((allEventsB statusOkD (extractLineItemsD explode) (·.displayName)
        keyD os s key).map (·.2)).take 6 := by
  rw [bundlesD_apply, foldEvents_sample]
  simp [emptyRec]

theorem bundlesP_sample (explode : Bool) (os : List Order) (s : ℕ)
    (key : String) :
    (bundlesP explode os s key).sample =
      ((allEventsB statusOkP (extractLineItemsP explode) (·.productId)
        keyP os s key).map (·.2)).take 6 := by
  rw [bundlesP_apply, foldEvents_sample]
  simp [emptyRec]

theorem allEventsB_append (statusOk : Order → Bool)
    (extract : Order → List BItem) (sortKeyOf : BItem → String)
    (keyOf : List BItem → String) (os1 os2 : List Order) (s : ℕ)
    (key : String) :
    allEventsB statusOk extract sortKeyOf keyOf (os1 ++ os2) s key =
      allEventsB statusOk extract sortKeyOf keyOf os1 s key ++
        allEventsB statusOk extract sortKeyOf keyOf os2 s key := by
  unfold allEventsB
  rw [List.flatMap_append]

end BA.Bundles

namespace BA.Bundles

theorem mergeFlavors_displayName (guard : BItem → Bool) (ex it : BItem) :
    (mergeFlavors guard ex it).displayName = ex.displayName := by
  unfold mergeFlavors
  by_cases h : guard ex = true
  · rw [if_pos h]
    cases ex.flavors <;> cases it.flavors <;> rfl
  · rw [if_neg h]

theorem mergeFlavors_productId (guard : BItem → Bool) (ex it : BItem) :
    (mergeFlavors guard ex it).productId = ex.productId := by
  unfold mergeFlavors
  by_cases h : guard ex = true
  · rw [if_pos h]
    cases ex.flavors <;> cases it.flavors <;> rfl
  · rw [if_neg h]

theorem dedupeBy_go_keys_nodup (keyOf : BItem → String) (guard : BItem → Bool)
    (hpres : ∀ ex it, keyOf (mergeFlavors guard ex it) = keyOf ex)
    (l : List BItem) :
    ∀ acc : List BItem, (acc.map keyOf).Nodup →
      ((dedupeBy.go keyOf guard acc l).map keyOf).Nodup := by
  induction l with
  | nil =>
      intro acc hacc
      simpa [dedupeBy.go] using hacc
  | cons it rest ih =>
      intro acc hacc
      simp only [dedupeBy.go]
      by_cases hdup : acc.any (fun ex => keyOf ex = keyOf it) = true
      · rw [if_pos hdup]
        refine ih _ ?_
        have hmap : (acc.map fun ex =>
            if keyOf ex = keyOf it then mergeFlavors guard ex it else ex).map
              keyOf = acc.map keyOf := by
          rw [List.map_map]
          refine List.map_congr_left ?_
          intro x _
          by_cases hx : keyOf x = keyOf it
          · simp only [Function.comp]
            rw [if_pos hx, hpres, hx]
          · simp only [Function.comp]
            rw [if_neg hx]
        rw [hmap]
        exact hacc
      · rw [if_neg hdup]
        refine ih _ ?_
        rw [List.map_append]
        simp only [List.map_cons, List.map_nil]
        have hperm : List.Perm (acc.map keyOf ++ [keyOf it])
            (keyOf it :: acc.map keyOf) := List.perm_append_singleton _ _
        rw [hperm.nodup_iff]
        rw [List.nodup_cons]
        refine ⟨?_, hacc⟩
        intro hmem
        rcases List.mem_map.1 hmem with ⟨ex, hex, hkey⟩
        rw [List.any_eq_true] at hdup
        exact hdup ⟨ex, hex, by simp [hkey]⟩

theorem dedupeBy_go_keys_mem (keyOf : BItem → String) (guard : BItem → Bool)
    (hpres : ∀ ex it, keyOf (mergeFlavors guard ex it) = keyOf ex)
    (l : List BItem) :
    ∀ (acc : List BItem) (x : String),
      (x ∈ (dedupeBy.go keyOf guard acc l).map keyOf ↔
        x ∈ acc.map keyOf ∨ x ∈ l.map keyOf) := by
  induction l with
  | nil =>
      intro acc x
      simp [dedupeBy.go]
  | cons it rest ih =>
      intro acc x
      simp only [dedupeBy.go]
      by_cases hdup : acc.any (fun ex => keyOf ex = keyOf it) = true
      · rw [if_pos hdup, ih]
        have hmap : (acc.map fun ex =>
            if keyOf ex = keyOf it then mergeFlavors guard ex it else ex).map
              keyOf = acc.map keyOf := by
          rw [List.map_map]
          refine List.map_congr_left ?_
          intro y _
          by_cases hy : keyOf y = keyOf it
          · simp only [Function.comp]
            rw [if_pos hy, hpres, hy]
          · simp only [Function.comp]
            rw [if_neg hy]
        rw [hmap]
        have hit : keyOf it ∈ acc.map keyOf := by
          rw [List.any_eq_true] at hdup
          rcases hdup with ⟨ex, hex, hkey⟩
          exact List.mem_map.2 ⟨ex, hex, by simpa using hkey⟩
        simp only [List.map_cons, List.mem_cons]
        constructor
        · rintro (h1 | h1)
          · exact Or.inl h1
          · exact Or.inr (Or.inr h1)
        · rintro (h1 | h1 | h1)
          · exact Or.inl h1
          · exact Or.inl (h1 ▸ hit)
          · exact Or.inr h1
      · rw [if_neg hdup, ih]
        simp only [List.map_append, List.map_cons, List.mem_append,
          List.mem_cons, List.mem_singleton, List.map_nil]
        constructor
        · rintro ((h1 | h1) | h1)
          · exact Or.inl h1
          · rcases h1 with h1 | h1
            · exact Or.inr (Or.inl h1)
            · simp at h1
          · exact Or.inr (Or.inr h1)
        · rintro (h1 | h1 | h1)
          · exact Or.inl (Or.inl h1)
          · exact Or.inl (Or.inr (Or.inl h1))
          · exact Or.inr h1

theorem extractLineItemsD_names_nodup (explode : Bool) (o : Order) :
    ((extractLineItemsD explode o).map (·.displayName)).Nodup := by
  unfold extractLineItemsD
  by_cases h : explode = true
  · simp only [h, Bool.not_true, Bool.false_eq_true, if_false]
    unfold dedupeBy
    exact dedupeBy_go_keys_nodup _ _
      (fun ex it => mergeFlavors_displayName _ ex it) _ [] (by simp)
  · have h' : explode = false := by simpa using h
    simp only [h', Bool.not_false, if_true]
    unfold dedupeBy
    exact dedupeBy_go_keys_nodup _ _
      (fun ex it => mergeFlavors_displayName _ ex it) _ [] (by simp)

theorem sortedItemsD_names_nodup (explode : Bool) (o : Order) :
    ((sortedItems (extractLineItemsD explode) (·.displayName) o).map
      (·.displayName)).Nodup := by
  have hperm : List.Perm
      ((sortedItems (extractLineItemsD explode) (·.displayName) o).map
        (·.displayName))
      ((extractLineItemsD explode o).map (·.displayName)) :=
    (sortLe_perm _ _).map _
  exact hperm.nodup_iff.2 (extractLineItemsD_names_nodup explode o)

end BA.Bundles

namespace BA.Bundles

theorem orderCombsB_eq_of_guard (extract : Order → List BItem)
    (sortKeyOf : BItem → String) (o : Order) (s : ℕ) (h1 : 1 ≤ s)
    (h2 : s ≤ 7) (h3 : s ≤ (sortedItems extract sortKeyOf o).length) :
    orderCombsB extract sortKeyOf o s =
      combinations (sortedItems extract sortKeyOf o) s := by
  unfold orderCombsB
  rw [if_neg (by omega : ¬(sortedItems extract sortKeyOf o).length < 1),
    if_pos ⟨h1, h2, h3⟩]

theorem orderCombsB_cases (extract : Order → List BItem)
    (sortKeyOf : BItem → String) (o : Order) (s : ℕ) :
    orderCombsB extract sortKeyOf o s = [] ∨
      (1 ≤ s ∧ s ≤ 7 ∧ s ≤ (sortedItems extract sortKeyOf o).length ∧
        orderCombsB extract sortKeyOf o s =
          combinations (sortedItems extract sortKeyOf o) s) := by
  by_cases hg : 1 ≤ s ∧ s ≤ 7 ∧ s ≤ (sortedItems extract sortKeyOf o).length
  · exact Or.inr ⟨hg.1, hg.2.1, hg.2.2,
      orderCombsB_eq_of_guard extract sortKeyOf o s hg.1 hg.2.1 hg.2.2⟩
  · left
    unfold orderCombsB
    by_cases hlen : (sortedItems extract sortKeyOf o).length < 1
    · rw [if_pos hlen]
    · rw [if_neg hlen, if_neg hg]

theorem orderNameCombCount_le_one (explode : Bool) (o : Order)
    (L : List String) : orderNameCombCount explode o L ≤ 1 := by
  unfold orderNameCombCount
  rcases orderCombsB_cases (extractLineItemsD explode) (·.displayName) o
      L.length with h | ⟨_, _, _, h4⟩
  · rw [h]; simp
  · rw [h4, ← combinations_map]
    exact count_combinations_le_one (sortedItemsD_names_nodup explode o) _ L

theorem orderNameCombCount_mono (explode : Bool) (o : Order)
    {S T : List String} (hS : S ≠ []) (hsub : S.Sublist T) :
    orderNameCombCount explode o T ≤ orderNameCombCount explode o S := by
  by_cases hT : orderNameCombCount explode o T = 0
  · rw [hT]
    exact Nat.zero_le _
  · have hpos : 0 < orderNameCombCount explode o T := Nat.pos_of_ne_zero hT
    unfold orderNameCombCount at hpos ⊢
    rcases orderCombsB_cases (extractLineItemsD explode) (·.displayName) o
        T.length with h | ⟨h1, h2, h3, h4⟩
    · rw [h] at hpos
      simp at hpos
    · rw [h4, ← combinations_map] at hpos ⊢
      have hmemT := List.count_pos_iff.1 hpos
      have hTfacts := mem_combinations.1 hmemT
      have hSsub : S.Sublist
          ((sortedItems (extractLineItemsD explode) (·.displayName) o).map
            (·.displayName)) := hsub.trans hTfacts.1
      have hS1 : 1 ≤ S.length := by
        have := List.length_pos.2 hS
        omega
      have hslen : S.length ≤ T.length := hsub.length_le
      rw [orderCombsB_eq_of_guard (extractLineItemsD explode) (·.displayName)
        o S.length hS1 (by omega) (by omega), ← combinations_map]
      have hone : (combinations
          ((sortedItems (extractLineItemsD explode) (·.displayName) o).map
            (·.displayName)) S.length).count S = 1 := by
        have := count_combinations_eq_one
          (sortedItemsD_names_nodup explode o) hSsub
        simpa using this
      rw [hone]
      exact count_combinations_le_one (sortedItemsD_names_nodup explode o) _ T

theorem nameEventCount_mono (explode : Bool) (os : List Order)
    {S T : List String} (hS : S ≠ []) (hsub : S.Sublist T) :
    nameEventCount explode os T ≤ nameEventCount explode os S := by
  unfold nameEventCount
  refine List.sum_le_sum ?_
  intro o _
  by_cases h : statusOkD o = true
  · simp only [h, if_true]
    exact orderNameCombCount_mono explode o hS hsub
  · have h' : statusOkD o = false := by simpa using h
    simp [h']

theorem nameEventCount_le_count (explode : Bool) (os : List Order)
    (T : List String) :
    nameEventCount explode os T ≤
      (bundlesD explode os T.length (" | ".intercalate T)).count := by
  rw [bundlesD_count]
  unfold allEventsB nameEventCount
  rw [List.length_flatMap]
  refine List.sum_le_sum ?_
  intro o _
  simp only [Function.comp_apply]
  unfold orderEventsB
  by_cases h : statusOkD o = true
  · simp only [h, if_true]
    rw [List.length_map, ← List.countP_eq_length_filter]
    unfold orderNameCombCount
    rw [count_map_eq_countP]
    refine List.countP_mono_left ?_
    intro c _ hc
    have hc' : c.map (·.displayName) = T := by simpa using hc
    simp only [decide_eq_true_eq]
    unfold keyD
    rw [hc']
  · have h' : statusOkD o = false := by simpa using h
    simp [h']

end BA.Bundles

namespace BA.Pairs

theorem pairEventCount_le_itemCounts (parse : String → Option Int)
    (os : List Order) (f t : Option String) (a b : String) :
    pairEventCount parse os f t (a, b) ≤
      (computeCounts parse os f t).itemCounts a := by
  rw [computeCounts_item]
  unfold pairEventCount
  refine List.sum_le_sum ?_
  intro o _
  by_cases h : (extractItemsForOrder o).length < 1
  · rw [if_pos h]
    exact Nat.zero_le _
  · rw [if_neg h]
    exact orderPairs_count_le_indicator o a b

theorem pairEventCount_le_itemCounts_right (parse : String → Option Int)
    (os : List Order) (f t : Option String) (a b : String) :
    pairEventCount parse os f t (a, b) ≤
      (computeCounts parse os f t).itemCounts b := by
  rw [computeCounts_item]
  unfold pairEventCount
  refine List.sum_le_sum ?_
  intro o _
  by_cases h : (extractItemsForOrder o).length < 1
  · rw [if_pos h]
    exact Nat.zero_le _
  · rw [if_neg h]
    exact orderPairs_count_le_indicator_right o a b

theorem pairEventCount_le_pairCounts (parse : String → Option Int)
    (os : List Order) (f t : Option String) (p : String × String) :
    pairEventCount parse os f t p ≤
      (computeCounts parse os f t).pairCounts (pairKeyStr p) := by
  rw [computeCounts_pair]
  unfold pairEventCount
  refine List.sum_le_sum ?_
  intro o _
  by_cases h : (extractItemsForOrder o).length < 1
  · rw [if_pos h]
    exact Nat.zero_le _
  · rw [if_neg h]
    exact count_le_count_map pairKeyStr (orderPairs o) p

end BA.Pairs

open BA in
/-- C3: zero-division safety of the metric derivations of
src/app/pairs/page.js lines 194-197: `supportPct` is 0 when
`totalEligibleOrders` is 0, `confidence(A→B)` is 0 when `count({A})` is
0, and `lift` is 0 when the total or either singleton count is 0.  In
the rational-number model every metric is total, so no computation can
produce NaN, infinity or an error. -/
theorem claim_C3 (total countA countB support : ℕ) :
    (total = 0 → Pairs.supportPctCalc total support = 0) ∧
    (countA = 0 → Pairs.confCalc countA support = 0) ∧
    (total = 0 ∨ countA = 0 ∨ countB = 0 →
      Pairs.liftCalc total countA countB support = 0) := by
  refine ⟨?_, ?_, ?_⟩
  · intro h
    subst h
    simp [Pairs.supportPctCalc]
  · intro h
    subst h
    simp [Pairs.confCalc]
  · intro h
    unfold Pairs.liftCalc
    rw [if_neg]
    rintro ⟨h1, h2, h3⟩
    rcases h with h | h | h <;> omega

open BA in
/-- Witness for C3 at concrete zero denominators. -/
theorem claim_C3_witness :
    Pairs.supportPctCalc 0 5 = 0 ∧ Pairs.confCalc 0 5 = 0 ∧
      Pairs.liftCalc 0 3 4 5 = 0 :=
  ⟨(claim_C3 0 1 1 5).1 rfl, (claim_C3 1 0 1 5).2.1 rfl,
    (claim_C3 0 3 4 5).2.2 (Or.inl rfl)⟩

open BA in
/-- C8: symmetry of lift (src/app/pairs/page.js line 197): with non-zero
denominators the computed value equals `N * support / (countA * countB)`
and is invariant under swapping the two singleton counts, i.e. under
swapping A and B of the unordered pair. -/
theorem claim_C8 (total countA countB support : ℕ) (hN : 0 < total)
    (hA : 0 < countA) (hB : 0 < countB) :
    Pairs.liftCalc total countA countB support =
      (total : ℚ) * (support : ℚ) / ((countA : ℚ) * (countB : ℚ)) ∧
    Pairs.liftCalc total countA countB support =
      Pairs.liftCalc total countB countA support := by
  have hN' : (total : ℚ) ≠ 0 := Nat.cast_ne_zero.2 hN.ne'
  have hA' : (countA : ℚ) ≠ 0 := Nat.cast_ne_zero.2 hA.ne'
  have hB' : (countB : ℚ) ≠ 0 := Nat.cast_ne_zero.2 hB.ne'
  unfold Pairs.liftCalc
  rw [if_pos ⟨hN, hA, hB⟩, if_pos ⟨hN, hB, hA⟩]
  constructor
  · field_simp
    ring
  · rw [mul_comm ((countA : ℚ) / (total : ℚ)) ((countB : ℚ) / (total : ℚ))]

open BA in
/-- Witness for C8 with `N = 2`, `count({A}) = 1`, `count({B}) = 2`,
`support = 1`. -/
theorem claim_C8_witness :
    Pairs.liftCalc 2 1 2 1 = 1 ∧
      Pairs.liftCalc 2 1 2 1 = Pairs.liftCalc 2 2 1 1 := by
  have h := claim_C8 2 1 2 1 (by decide) (by decide) (by decide)
  refine ⟨?_, h.2⟩
  rw [h.1]
  norm_num

open BA in
/-- C5: the enumerator `combinations` (src/app/page.jsx lines 318-335)
is complete and duplicate-free: it yields exactly the sublists of the
given size (`C(n,k)` many, each exactly once when the items are
distinct), and the per-size loop of lines 372-374 produces
`Σ C(n,k)` itemsets for `k = 1..min(K,n)`.  Determinism holds by
construction (the enumeration is a pure function of the sorted input). -/
theorem claim_C5 {α : Type} [BEq α] [LawfulBEq α] (items : List α)
    (K k : ℕ) :
    ((combinations items k).length = Nat.choose items.length k) ∧
    (∀ c : List α, c ∈ combinations items k ↔
      c.Sublist items ∧ c.length = k) ∧
    (items.Nodup → ∀ c : List α, c.Sublist items → c.length = k →
      (combinations items k).count c = 1) ∧
    ((enumAll items K).length =
      ∑ j ∈ Finset.Icc 1 (min K items.length), Nat.choose items.length j) := by
  refine ⟨combinations_length items k, fun c => mem_combinations, ?_,
    enumAll_length items K⟩
  intro hnd c hsub hlen
  have h := count_combinations_eq_one hnd hsub
  rw [hlen] at h
  exact h

open BA in
/-- Witness for C5 on the three-element list `[1, 2, 3]` with `K = 7`. -/
theorem claim_C5_witness :
    (combinations [1, 2, 3] 2).length = 3 ∧
    (combinations [1, 2, 3] 2).count [1, 3] = 1 ∧
    (enumAll [1, 2, 3] 7).length = 7 := by
  refine ⟨(claim_C5 [1, 2, 3] 7 2).1, ?_, ?_⟩
  · refine (claim_C5 [1, 2, 3] 7 2).2.2.1 (by decide) [1, 3] ?_ (by decide)
    exact List.Sublist.cons₂ 1 (List.Sublist.cons 2 (List.Sublist.refl [3]))
  · rw [(claim_C5 [1, 2, 3] 7 2).2.2.2]
    decide

open BA in
/-- C7: date handling of `isOrderEligible` (src/app/pairs/page.js lines
77-91).  When the resolved date (preference chain `date_paid`,
`date_completed`, `date_created`, `date_created_gmt`) is absent or
unparsable, the configured range is ignored and eligibility reduces to
the status and refund checks; when the date and both bounds parse,
eligibility additionally requires the date to lie in the inclusive
range. -/
theorem claim_C7 (parse : String → Option Int) (o : Order)
    (fromIso toIso : Option String) :
    (Pairs.toDateSafe parse (Pairs.dateVal o) = none →
      Pairs.isOrderEligible parse o fromIso toIso =
        (Pairs.statusOk o && Pairs.moneyOk o)) ∧
    (∀ (d f t : Int) (fs ts : String),
      Pairs.toDateSafe parse (Pairs.dateVal o) = some d →
      fromIso = some fs → fs ≠ "" → parse fs = some f →
      toIso = some ts → ts ≠ "" → parse ts = some t →
      Pairs.isOrderEligible parse o fromIso toIso =
        (Pairs.statusOk o && Pairs.moneyOk o &&
          (decide (f ≤ d) && decide (d ≤ t)))) := by
  constructor
  · intro h
    unfold Pairs.isOrderEligible
    rw [h]
    cases hs : Pairs.statusOk o <;> cases hm : Pairs.moneyOk o <;>
      simp [hs, hm]
  · intro d f t fs ts hd hf hfs hpf ht hts hpt
    unfold Pairs.isOrderEligible
    rw [hd, hf, ht]
    simp only [Pairs.boundOk, if_neg hfs, if_neg hts, hpf, hpt]
    cases hs : Pairs.statusOk o <;> cases hm : Pairs.moneyOk o <;>
      simp [hs, hm]

open BA in
/-- Witness for C7: `oC7n` has no date fields and is eligible for any
range; `oC7`'s `date_paid` parses to 5 and the range `[1, 9]` admits
it. -/
theorem claim_C7_witness :
    Pairs.toDateSafe parseT (Pairs.dateVal oC7n) = none ∧
    Pairs.isOrderEligible parseT oC7n (some "D1") (some "D9") =
      (Pairs.statusOk oC7n && Pairs.moneyOk oC7n) ∧
    Pairs.toDateSafe parseT (Pairs.dateVal oC7) = some 5 ∧
    Pairs.isOrderEligible parseT oC7 (some "D1") (some "D9") =
      (Pairs.statusOk oC7 && Pairs.moneyOk oC7 &&
        (decide ((1 : Int) ≤ 5) && decide ((5 : Int) ≤ 9))) :=
  ⟨by decide,
   (claim_C7 parseT oC7n (some "D1") (some "D9")).1 (by decide),
   by decide,
   (claim_C7 parseT oC7 (some "D1") (some "D9")).2 5 1 9 "D1" "D9"
     (by decide) rfl (by decide) (by decide) rfl (by decide) (by decide)⟩

open BA in
/-- C4: presence-based counting in the pairs engine (src/app/pairs/
page.js lines 134-139 and 164-183).  An order's extracted keys are
duplicate-free; when at least one line item resolves to canonical key
`k` the order's update adds exactly 1 (not the number of such lines) to
`k`'s single-item count, and the order produces every key pair (the
per-order itemsets) at most once. -/
theorem claim_C4 (st : Pairs.PairState) (o : Order) (k : String)
    (h : ∃ li ∈ o.line_items, Pairs.lineCanonKey li = some k) :
    (Pairs.orderKeyList o).Nodup ∧
    (Pairs.processOrderCounts st o).itemCounts k = st.itemCounts k + 1 ∧
    (∀ p : String × String, (Pairs.orderPairs o).count p ≤ 1) := by
  refine ⟨Pairs.orderKeyList_nodup o, ?_,
    fun p => Pairs.orderPairs_count_le_one o p⟩
  rw [Pairs.processOrderCounts_item,
    if_pos (Pairs.mem_orderKeyList_of_resolves h)]

open BA in
/-- Witness for C4: `oC4` has two line items with product id 5 (and no
variation), both resolving to key `5::0`; the order adds exactly one to
that key's count. -/
theorem claim_C4_witness :
    (∃ li ∈ oC4.line_items, Pairs.lineCanonKey li = some "5::0") ∧
    (Pairs.processOrderCounts Pairs.initState oC4).itemCounts "5::0" =
      Pairs.initState.itemCounts "5::0" + 1 :=
  ⟨by decide, (claim_C4 Pairs.initState oC4 "5::0" (by decide)).2.1⟩

open BA in
/-- C2 counterexample: the claim asserts the refund/zero-total exclusion
for the bundle computations as well, but `bundlesBySize`
(src/app/page.jsx lines 362-367) and its `totalEligibleOrders` (lines
99-105) check only the status.  The `completed` order `oC2` has
monetary total 0, yet it is counted as eligible and contributes a
bundle count of 1. -/
theorem claim_C2_counterexample :
    oC2.status = some "completed" ∧ oC2.total = some 0 ∧
    Bundles.totalEligibleD [oC2] = 1 ∧
    (Bundles.bundlesD false [oC2] 1 "Alpha Beta").count = 1 :=
  ⟨rfl, rfl, by decide, by decide⟩

open BA in
/-- C2 (amended): in the pairs computation, an order whose total is 0 or
whose refunded total reaches its total is ineligible and contributes to
no count: removing it changes neither `totalEligibleOrders` nor any
item or pair count (src/app/pairs/page.js lines 73-75, 150-183). -/
theorem claim_C2_amended (parse : String → Option Int)
    (os1 os2 : List Order) (o : Order) (f t : Option String)
    (h : o.total.getD 0 = 0 ∨ o.total_refunded.getD 0 ≥ o.total.getD 0) :
    Pairs.isOrderEligible parse o f t = false ∧
    Pairs.eligibleOrders parse (os1 ++ o :: os2) f t =
      Pairs.eligibleOrders parse (os1 ++ os2) f t ∧
    Pairs.totalEligibleOrders parse (os1 ++ o :: os2) f t =
      Pairs.totalEligibleOrders parse (os1 ++ os2) f t ∧
    Pairs.computeCounts parse (os1 ++ o :: os2) f t =
      Pairs.computeCounts parse (os1 ++ os2) f t := by
  have hm : Pairs.moneyOk o = false := by
    unfold Pairs.moneyOk
    rcases h with h | h <;> simp [h]
  have hiol : Pairs.isOrderEligible parse o f t = false := by
    unfold Pairs.isOrderEligible
    rw [hm]
    cases hst : Pairs.statusOk o <;> simp
  have helig : Pairs.eligibleOrders parse (os1 ++ o :: os2) f t =
      Pairs.eligibleOrders parse (os1 ++ os2) f t := by
    unfold Pairs.eligibleOrders
    rw [List.filter_append, List.filter_cons, List.filter_append]
    simp [hiol]
  refine ⟨hiol, helig, ?_, ?_⟩
  · unfold Pairs.totalEligibleOrders
    rw [helig]
  · unfold Pairs.computeCounts
    rw [helig]

open BA in
/-- Witness for C2 (amended) on the zero-total completed order `oC2`. -/
theorem claim_C2_amended_witness :
    (oC2.total.getD 0 = 0 ∨ oC2.total_refunded.getD 0 ≥ oC2.total.getD 0) ∧
    Pairs.isOrderEligible parseNone oC2 none none = false ∧
    Pairs.totalEligibleOrders parseNone ([] ++ oC2 :: []) none none =
      Pairs.totalEligibleOrders parseNone ([] ++ []) none none :=
  ⟨Or.inl (by decide),
   (claim_C2_amended parseNone [] [] oC2 none none (Or.inl (by decide))).1,
   (claim_C2_amended parseNone [] [] oC2 none none
     (Or.inl (by decide))).2.2.1⟩

open BA in
/-- C6 counterexample: the claim asserts the zero-signal line-item skip
for the bundle computations as well, but `extractLineItems`
(src/app/page.jsx lines 145-315) never checks quantity or line total.
`oC6`'s only line item has quantity 0 and total 0, yet it yields a
canonical item and a bundle count of 1. -/
theorem claim_C6_counterexample :
    (∀ li ∈ oC6.line_items, Pairs.lineQty li ≤ 0 ∧ Pairs.lineTotal li ≤ 0) ∧
    (Bundles.extractLineItemsD false oC6).map (·.displayName) =
      ["Alpha Beta"] ∧
    (Bundles.bundlesD false [oC6] 1 "Alpha Beta").count = 1 :=
  ⟨by decide, by decide, by decide⟩

open BA in
/-- C6 (amended): the pairs engine's item resolution
(src/app/pairs/page.js lines 103-108) skips zero-signal lines: removing
a line item with quantity ≤ 0 or line total ≤ 0 leaves the order's
resolved item set unchanged, so such a line contributes no canonical
item and no itemset membership. -/
theorem claim_C6_amended (o : Order) (l1 l2 : List LineItem)
    (li : LineItem)
    (h : Pairs.lineQty li ≤ 0 ∨ Pairs.lineTotal li ≤ 0) :
    Pairs.extractItemsForOrder { o with line_items := l1 ++ li :: l2 } =
      Pairs.extractItemsForOrder { o with line_items := l1 ++ l2 } := by
  have h1 : Pairs.linePItem li = none := by
    unfold Pairs.linePItem
    rcases h with h | h
    · rw [if_pos h]
    · by_cases hq : Pairs.lineQty li ≤ 0
      · rw [if_pos hq]
      · rw [if_neg hq, if_pos h]
  have hfm : (l1 ++ li :: l2).filterMap Pairs.linePItem =
      (l1 ++ l2).filterMap Pairs.linePItem := by
    rw [List.filterMap_append, List.filterMap_append, List.filterMap_cons, h1]
  have hsaw : Pairs.sawGummiesLine { o with line_items := l1 ++ li :: l2 } =
      Pairs.sawGummiesLine { o with line_items := l1 ++ l2 } := by
    unfold Pairs.sawGummiesLine
    show (l1 ++ li :: l2).any _ = (l1 ++ l2).any _
    rw [List.any_append, List.any_cons, List.any_append]
    have hz : (decide (0 < Pairs.lineQty li) &&
        decide (0 < Pairs.lineTotal li) &&
        Pairs.isGummiesName (Pairs.lineName li)) = false := by
      rcases h with h | h
      · have hq : decide (0 < Pairs.lineQty li) = false := by
          simpa using not_lt.2 h
        simp [hq]
      · have hq : decide (0 < Pairs.lineTotal li) = false := by
          simpa using not_lt.2 h
        simp [hq]
    rw [hz]
    simp
  unfold Pairs.extractItemsForOrder
  congr 1
  unfold Pairs.preItems
  show (l1 ++ li :: l2).filterMap _ ++ _ = (l1 ++ l2).filterMap _ ++ _
  rw [hfm, hsaw]

open BA in
/-- Witness for C6 (amended): dropping a quantity-0 line from a
two-line order leaves the pairs item resolution unchanged. -/
theorem claim_C6_amended_witness :
    (Pairs.lineQty (mkLine "1" "Alpha Beta" 0 0) ≤ 0 ∨
      Pairs.lineTotal (mkLine "1" "Alpha Beta" 0 0) ≤ 0) ∧
    Pairs.extractItemsForOrder
        { oC6 with line_items :=
            [mkLine "2" "Gamma Delta" 1 5] ++
              mkLine "1" "Alpha Beta" 0 0 :: [] } =
      Pairs.extractItemsForOrder
        { oC6 with line_items := [mkLine "2" "Gamma Delta" 1 5] ++ [] } :=
  ⟨Or.inl (by decide),
   claim_C6_amended oC6 [mkLine "2" "Gamma Delta" 1 5] []
     (mkLine "1" "Alpha Beta" 0 0) (Or.inl (by decide))⟩

namespace BA

theorem take_six_stable {β : Type} (l1 l2 : List β) :
    ((l1 ++ l2).take 6).take ((l1.take 6).length) = l1.take 6 := by
  rw [List.length_take, List.take_take]
  have hm : min (min 6 l1.length) 6 = min 6 l1.length := by omega
  rw [hm, List.take_append_of_le_length
    (by omega : min 6 l1.length ≤ l1.length)]
  calc l1.take (min 6 l1.length) = (l1.take l1.length).take 6 := by
        rw [List.take_take]
    _ = l1.take 6 := by rw [List.take_length]

end BA

open BA in
/-- C9: bounded first-seen order sample, for both bundle variants
(src/app/page.jsx lines 381-392 and 1019-1029).  Each record's sample
list is exactly the references of the first at most 6 increment events
of its key (one event per contributing combination of an eligible
order, in dataset order), so it never exceeds 6 entries, its count
equals the total number of events, and processing further orders never
replaces or reorders the existing entries. -/
theorem claim_C9 (explode : Bool) (os os2 : List Order) (s : ℕ)
    (key : String) :
    ((Bundles.bundlesD explode os s key).sample =
        ((Bundles.eventsD explode os s key).map (·.2)).take 6 ∧
      (Bundles.bundlesD explode os s key).sample.length ≤ 6 ∧
      (Bundles.bundlesD explode os s key).count =
        (Bundles.eventsD explode os s key).length ∧
      (Bundles.bundlesD explode (os ++ os2) s key).sample.take
          (Bundles.bundlesD explode os s key).sample.length =
        (Bundles.bundlesD explode os s key).sample) ∧
    ((Bundles.bundlesP explode os s key).sample =
        ((Bundles.eventsP explode os s key).map (·.2)).take 6 ∧
      (Bundles.bundlesP explode os s key).sample.length ≤ 6 ∧
      (Bundles.bundlesP explode os s key).count =
        (Bundles.eventsP explode os s key).length ∧
      (Bundles.bundlesP explode (os ++ os2) s key).sample.take
          (Bundles.bundlesP explode os s key).sample.length =
        (Bundles.bundlesP explode os s key).sample) := by
  have hD1 : (Bundles.bundlesD explode os s key).sample =
      ((Bundles.eventsD explode os s key).map (·.2)).take 6 := by
    unfold Bundles.eventsD
    exact Bundles.bundlesD_sample explode os s key
  have hP1 : (Bundles.bundlesP explode os s key).sample =
      ((Bundles.eventsP explode os s key).map (·.2)).take 6 := by
    unfold Bundles.eventsP
    exact Bundles.bundlesP_sample explode os s key
  have hD4 : (Bundles.bundlesD explode (os ++ os2) s key).sample.take
      (Bundles.bundlesD explode os s key).sample.length =
      (Bundles.bundlesD explode os s key).sample := by
    have h2 : (Bundles.bundlesD explode (os ++ os2) s key).sample =
        (((Bundles.eventsD explode os s key).map (·.2)) ++
          ((Bundles.eventsD explode os2 s key).map (·.2))).take 6 := by
      unfold Bundles.eventsD
      rw [Bundles.bundlesD_sample, Bundles.allEventsB_append,
        List.map_append]
    rw [h2, hD1]
    exact take_six_stable _ _
  have hP4 : (Bundles.bundlesP explode (os ++ os2) s key).sample.take
      (Bundles.bundlesP explode os s key).sample.length =
      (Bundles.bundlesP explode os s key).sample := by
    have h2 : (Bundles.bundlesP explode (os ++ os2) s key).sample =
        (((Bundles.eventsP explode os s key).map (·.2)) ++
          ((Bundles.eventsP explode os2 s key).map (·.2))).take 6 := by
      unfold Bundles.eventsP
      rw [Bundles.bundlesP_sample, Bundles.allEventsB_append,
        List.map_append]
    rw [h2, hP1]
    exact take_six_stable _ _
  refine ⟨⟨hD1, ?_, ?_, hD4⟩, ⟨hP1, ?_, ?_, hP4⟩⟩
  · rw [hD1, List.length_take]
    omega
  · unfold Bundles.eventsD
    exact Bundles.bundlesD_count explode os s key
  · rw [hP1, List.length_take]
    omega
  · unfold Bundles.eventsP
    exact Bundles.bundlesP_count explode os s key

namespace BA.Bundles

theorem lineStep_items_extend (e : Bool) (st : LState) (li : LineItem) :
    ∃ ext, (lineStep e st li).items = st.items ++ ext := by
  unfold lineStep
  dsimp only
  split_ifs
  all_goals first
    | exact ⟨_, rfl⟩
    | exact ⟨[], (List.append_nil _).symm⟩

theorem foldl_lineStep_items_extend (e : Bool) (lis : List LineItem)
    (st : LState) :
    ∃ ext, (lis.foldl (lineStep e) st).items = st.items ++ ext := by
  induction lis generalizing st with
  | nil => exact ⟨[], (List.append_nil _).symm⟩
  | cons li rest ih =>
      rcases lineStep_items_extend e st li with ⟨e1, he1⟩
      rcases ih (lineStep e st li) with ⟨e2, he2⟩
      exact ⟨e1 ++ e2, by rw [List.foldl_cons, he2, he1, List.append_assoc]⟩

theorem lineStep_items_nonGummies (e : Bool) (st : LState) (li : LineItem)
    (hg : (normalizeProductName (rawNameOf li)).1 ≠ "Gummies") :
    (lineStep e st li).items = st.items ++ [nonGummiesItem li] := by
  unfold lineStep
  dsimp only
  rw [if_neg hg]

theorem gummiesAppend_extend (st : LState) :
    ∃ ext, gummiesAppend st = st.items ++ ext := by
  unfold gummiesAppend
  split_ifs
  all_goals first
    | exact ⟨_, rfl⟩
    | exact ⟨[], (List.append_nil _).symm⟩

theorem mem_extractD_names {explode : Bool} {o : Order} {li : LineItem}
    (hli : li ∈ o.line_items)
    (hg : (normalizeProductName (rawNameOf li)).1 ≠ "Gummies") :
    (normalizeProductName (rawNameOf li)).1 ∈
      (extractLineItemsD explode o).map (·.displayName) := by
  rcases List.append_of_mem hli with ⟨l1, l2, hsplit⟩
  have hmem : nonGummiesItem li ∈
      (o.line_items.foldl (lineStep explode) ⟨[], [], false⟩).items := by
    rw [hsplit, List.foldl_append, List.foldl_cons]
    rcases foldl_lineStep_items_extend explode l2
        (lineStep explode (l1.foldl (lineStep explode) ⟨[], [], false⟩) li)
      with ⟨e2, he2⟩
    rw [he2, lineStep_items_nonGummies explode _ li hg]
    simp
  have hname : (normalizeProductName (rawNameOf li)).1 =
      (nonGummiesItem li).displayName := rfl
  unfold extractLineItemsD
  by_cases he : explode = true
  · simp only [he, Bool.not_true, Bool.false_eq_true, if_false]
    unfold dedupeBy
    rw [dedupeBy_go_keys_mem _ _
      (fun ex it => mergeFlavors_displayName _ ex it)]
    right
    rw [hname]
    rw [he] at hmem
    exact List.mem_map_of_mem _ hmem
  · have he' : explode = false := by simpa using he
    simp only [he', Bool.not_false, if_true]
    unfold dedupeBy
    rw [dedupeBy_go_keys_mem _ _
      (fun ex it => mergeFlavors_displayName _ ex it)]
    right
    rcases gummiesAppend_extend
        (o.line_items.foldl (lineStep false) ⟨[], [], false⟩) with ⟨ext, hext⟩
    rw [hext]
    rw [hname]
    refine List.mem_map_of_mem _ ?_
    rw [he'] at hmem
    exact List.mem_append_left _ hmem

end BA.Bundles

open BA in
/-- C10 (implicit): display-label identity collapse in the
displayName-keyed bundle variant (src/app/page.jsx lines 125-137,
287-314, 376-379).  The display names of an order's extracted items are
duplicate-free; any two line items that the resolver treats as
non-gummies and whose (trimmed) names share the same non-empty first
two whitespace-delimited words get the same product label independently
of their product/variation ids, and that label occurs exactly once
among the order's items — the pair contributes a single item and hence
a single bundle-key component. -/
theorem claim_C10 (explode : Bool) (o : Order) (li1 li2 : LineItem)
    (h1 : li1 ∈ o.line_items) (_h2 : li2 ∈ o.line_items)
    (hw : firstTwoWords (trimStr (Bundles.rawNameOf li1)) =
      firstTwoWords (trimStr (Bundles.rawNameOf li2)))
    (hne : firstTwoWords (trimStr (Bundles.rawNameOf li1)) ≠ "")
    (hg1 : (Bundles.normalizeProductName (Bundles.rawNameOf li1)).1 ≠
      "Gummies")
    (hg2 : (Bundles.normalizeProductName (Bundles.rawNameOf li2)).1 ≠
      "Gummies") :
    ((Bundles.extractLineItemsD explode o).map (·.displayName)).Nodup ∧
    (Bundles.normalizeProductName (Bundles.rawNameOf li1)).1 =
      (Bundles.normalizeProductName (Bundles.rawNameOf li2)).1 ∧
    ((Bundles.extractLineItemsD explode o).map (·.displayName)).count
      ((Bundles.normalizeProductName (Bundles.rawNameOf li1)).1) = 1 := by
  have hr1 : Bundles.rawNameOf li1 ≠ "" := by
    intro hr
    rw [hr] at hne
    exact hne (by decide)
  have hr2 : Bundles.rawNameOf li2 ≠ "" := by
    intro hr
    rw [hw, hr] at hne
    exact hne (by decide)
  have hcg : ∀ li : LineItem, Bundles.rawNameOf li ≠ "" →
      (Bundles.normalizeProductName (Bundles.rawNameOf li)).1 ≠ "Gummies" →
      ¬ Bundles.containsGummi (trimStr (Bundles.rawNameOf li)) = true := by
    intro li hr hg hcon
    apply hg
    unfold Bundles.normalizeProductName
    rw [if_neg hr]
    dsimp only
    rw [if_pos hcon]
  have hprod : ∀ li : LineItem, Bundles.rawNameOf li ≠ "" →
      (Bundles.normalizeProductName (Bundles.rawNameOf li)).1 ≠ "Gummies" →
      firstTwoWords (trimStr (Bundles.rawNameOf li)) ≠ "" →
      (Bundles.normalizeProductName (Bundles.rawNameOf li)).1 =
        firstTwoWords (trimStr (Bundles.rawNameOf li)) := by
    intro li hr hg hnef
    unfold Bundles.normalizeProductName
    rw [if_neg hr]
    dsimp only
    rw [if_neg (hcg li hr hg)]
    dsimp only
    unfold firstTwoWords at hnef ⊢
    rw [if_pos hnef]
  have heq : (Bundles.normalizeProductName (Bundles.rawNameOf li1)).1 =
      (Bundles.normalizeProductName (Bundles.rawNameOf li2)).1 := by
    rw [hprod li1 hr1 hg1 hne, hprod li2 hr2 hg2 (hw ▸ hne), hw]
  refine ⟨Bundles.extractLineItemsD_names_nodup explode o, heq, ?_⟩
  have hmem := @Bundles.mem_extractD_names explode o li1 h1 hg1
  have hle := count_le_one_of_nodup
    (Bundles.extractLineItemsD_names_nodup explode o)
    ((Bundles.normalizeProductName (Bundles.rawNameOf li1)).1)
  have hpos := List.count_pos_iff.2 hmem
  omega

open BA in
/-- Witness for C10: `Widget Pro Max` (id 11) and `Widget Pro Mini`
(id 12) collapse into a single `Widget Pro` item. -/
theorem claim_C10_witness :
    liC10a ∈ oC10.line_items ∧ liC10b ∈ oC10.line_items ∧
    (Bundles.normalizeProductName (Bundles.rawNameOf liC10a)).1 =
      "Widget Pro" ∧
    ((Bundles.extractLineItemsD false oC10).map (·.displayName)).count
      "Widget Pro" = 1 := by
  refine ⟨by decide, by decide, by decide, ?_⟩
  have h := (claim_C10 false oC10 liC10a liC10b (by decide) (by decide)
    (by decide) (by decide) (by decide) (by decide)).2.2
  have he : (Bundles.normalizeProductName (Bundles.rawNameOf liC10a)).1 =
      "Widget Pro" := by decide
  rw [he] at h
  exact h

open BA in
/-- C1 counterexample: itemset keys are built by string concatenation,
so distinct itemsets can collide on one stored key.  With string
product ids, order `oC1a` holds items `7::0` and `8::0||9::0` while
`oC1b` holds `7::0||8::0` and `9::0`; both produce the canonical pair
key `7::0||8::0||9::0` (the code-unit sort puts the components in this
order in both cases), so its stored support is 2 although every
participating item key — and in particular `A = "7::0"` and
`B = "8::0"` as recovered by the entry's `pairKey.split("||")` — has a
single-item count of at most 1.  Hence
`support({A,B}) ≤ min(count({A}), count({B}))` fails on this dataset. -/
theorem claim_C1_counterexample :
    Pairs.pairKeyStr ("7::0", "8::0||9::0") = "7::0||8::0||9::0" ∧
    Pairs.pairKeyStr ("7::0||8::0", "9::0") = "7::0||8::0||9::0" ∧
    (Pairs.computeCounts parseNone [oC1a, oC1b] none none).pairCounts
      "7::0||8::0||9::0" = 2 ∧
    (Pairs.computeCounts parseNone [oC1a, oC1b] none none).itemCounts
      "7::0" = 1 ∧
    (Pairs.computeCounts parseNone [oC1a, oC1b] none none).itemCounts
      "8::0||9::0" = 1 ∧
    (Pairs.computeCounts parseNone [oC1a, oC1b] none none).itemCounts
      "7::0||8::0" = 1 ∧
    (Pairs.computeCounts parseNone [oC1a, oC1b] none none).itemCounts
      "9::0" = 1 ∧
    (Pairs.computeCounts parseNone [oC1a, oC1b] none none).itemCounts
      "8::0" = 0 ∧
    ¬(2 ≤ 1) :=
  ⟨rfl, rfl, by decide, by decide, by decide, by decide, by decide,
    by decide, by decide⟩

open BA in
/-- C1 (amended): antimonotonicity holds at the itemset level, before
the string keying.  Pairs engine: the number of orders producing the
ordered canonical pair `(a, b)` is bounded by each singleton count and
by the stored count of its `"a||b"` key.  Bundle engine (displayName
variant): for item-name lists `S ⊆ T` (`S` nonempty), `T`'s
contribution events are at most `S`'s, and the stored count of `T`'s
`" | "`-joined key is at least `T`'s event count.  The stored,
string-keyed counts themselves can violate the inequality only through
key collisions, as the counterexample exhibits. -/
theorem claim_C1_amended :
    (∀ (parse : String → Option Int) (os : List Order)
      (f t : Option String) (a b : String),
      Pairs.pairEventCount parse os f t (a, b) ≤
        (Pairs.computeCounts parse os f t).itemCounts a ∧
      Pairs.pairEventCount parse os f t (a, b) ≤
        (Pairs.computeCounts parse os f t).itemCounts b ∧
      Pairs.pairEventCount parse os f t (a, b) ≤
        (Pairs.computeCounts parse os f t).pairCounts
          (Pairs.pairKeyStr (a, b))) ∧
    (∀ (explode : Bool) (os : List Order) (S T : List String),
      S ≠ [] → S.Sublist T →
      Bundles.nameEventCount explode os T ≤
        Bundles.nameEventCount explode os S) ∧
    (∀ (explode : Bool) (os : List Order) (T : List String),
      Bundles.nameEventCount explode os T ≤
        (Bundles.bundlesD explode os T.length
          (" | ".intercalate T)).count) :=
  ⟨fun parse os f t a b =>
    ⟨Pairs.pairEventCount_le_itemCounts parse os f t a b,
     Pairs.pairEventCount_le_itemCounts_right parse os f t a b,
     Pairs.pairEventCount_le_pairCounts parse os f t (a, b)⟩,
   fun e os _ _ hS hsub => Bundles.nameEventCount_mono e os hS hsub,
   fun e os T => Bundles.nameEventCount_le_count e os T⟩

open BA in
/-- Witness for C1 (amended) on the two-item order `oW1` (bundle side)
and the dataset `[oC1a]` (pairs side). -/
theorem claim_C1_amended_witness :
    (["Blue Hat"] : List String) ≠ [] ∧
    Bundles.nameEventCount false [oW1] ["Blue Hat", "Red Shirt"] ≤
      Bundles.nameEventCount false [oW1] ["Blue Hat"] ∧
    Pairs.pairEventCount parseNone [oC1a] none none
        ("7::0", "8::0||9::0") ≤
      (Pairs.computeCounts parseNone [oC1a] none none).itemCounts "7::0" :=
  ⟨by decide,
   (claim_C1_amended.2.1) false [oW1] ["Blue Hat"] ["Blue Hat", "Red Shirt"]
     (by decide)
     (List.Sublist.cons₂ "Blue Hat" (List.nil_sublist ["Red Shirt"])),
   ((claim_C1_amended.1) parseNone [oC1a] none none "7::0" "8::0||9::0").1⟩
